import Mathlib

/-!
To-Do list app (`src/script.js`): shallow embedding and verified properties

The page state that the script reads back is modelled as a record: the four form inputs,
the children of `#todo-list` (in document order) and the global `deletedTasks` array.
The message banner and the progress bar are written but never read by the script; the
banner is left out and the progress percentage is the value returned by `updateProgress`.

Built-ins of the JavaScript runtime appear as follows.
* `Date.now()` is the argument `now` of every function that creates a list item.
* `String.prototype.toLowerCase` is a parameter `toLowerCase : String → String`.
* `String.prototype.trim` and `String.prototype.includes` are defined below.
* `new Date(s)` is a parameter `parseDate : String → Option Int` (`none` is an invalid
  date, whose time value is `NaN`).
* `Array.prototype.sort` is a stable insertion sort driven by the comparator, with a
  `NaN` comparator result read as `+0` (the `SortCompare` rule).
* Double arithmetic (`/`, `*`, `-`, `Math.round`) is exact rational arithmetic followed
  by rounding to the nearest 53-bit significand, ties to even.
-/

namespace TodoApp

/-! ## Strings -/

/-- Code points removed by `String.prototype.trim`: the ECMAScript `WhiteSpace` and
`LineTerminator` productions. -/
def isWhiteSpace (c : Char) : Bool :=
  let n := c.toNat
  n = 0x09 || n = 0x0A || n = 0x0B || n = 0x0C || n = 0x0D || n = 0x20 || n = 0xA0 ||
  n = 0x1680 || (0x2000 ≤ n && n ≤ 0x200A) || n = 0x2028 || n = 0x2029 || n = 0x202F ||
  n = 0x205F || n = 0x3000 || n = 0xFEFF

/-- JavaScript `s.trim()`: white space removed from both ends. -/
def trim (s : String) : String :=
  ⟨((s.data.dropWhile isWhiteSpace).reverse.dropWhile isWhiteSpace).reverse⟩

/-- Prefix test used by `includes`. -/
def startsWith : List Char → List Char → Bool
  | _, [] => true
  | [], _ :: _ => false
  | c :: s, d :: t => c == d && startsWith s t

/-- Substring search on character lists: does `t` occur in `s` at some position. -/
def includesChars : List Char → List Char → Bool
  | [], t => startsWith [] t
  | c :: s, t => startsWith (c :: s) t || includesChars s t

/-- JavaScript `s.includes(t)`. -/
def includes (s t : String) : Bool := includesChars s.data t.data

/-! ## List items and page state -/

/-- One `<li>` of `#todo-list`, with the attributes and descendants the script reads:
`data-task-id`, `data-priority`, `data-category`, `data-due-date`, the class `completed`,
the text of the `.task-text` span and `style.display` (the empty string until
`filterAndSortTasks` sets it). While a task is edited an input stands in place of the
span; that part is modelled on its own by `TextView` below. -/
structure Li where
  taskId : Nat
  priority : String
  category : String
  dueDate : String
  completed : Bool
  text : String
  display : String
deriving DecidableEq, Repr

/-- The object pushed on `deletedTasks` by the delete action. The object literal has the
six properties `id`, `text`, `dueDate`, `priority`, `category`, `completed`; it has no
`index` property, so `lastTask.index` reads `undefined`, which is `none` here. -/
structure DeletedTask where
  id : Nat
  text : String
  dueDate : String
  priority : String
  category : String
  completed : Bool
  index : Option Nat
deriving DecidableEq, Repr

/-- The state read and written by the script. -/
structure Page where
  taskInput : String
  dueDateInput : String
  prioritySelect : String
  categoryInput : String
  todoList : List Li
  deletedTasks : List DeletedTask
deriving DecidableEq, Repr

/-- The page before any interaction. -/
def Page.initial : Page :=
  { taskInput := "", dueDateInput := "", prioritySelect := "low", categoryInput := "",
    todoList := [], deletedTasks := [] }

/-- `createListItem(taskText, dueDate, priority, category, completed)`; the id is the
value of `Date.now()` at the call. -/
def createListItem (taskText dueDate priority category : String) (completed : Bool)
    (now : Nat) : Li :=
  { taskId := now, priority := priority, category := category, dueDate := dueDate,
    completed := completed, text := taskText, display := "" }

/-- `addTask()`. -/
def addTask (toLowerCase : String → String) (s : Page) (now : Nat) : Page :=
  let taskText := trim s.taskInput
  if taskText = "" then s
  else
    let dueDate := s.dueDateInput
    let priority := s.prioritySelect
    let category := trim s.categoryInput
    let li := createListItem taskText dueDate (toLowerCase priority) category false now
    { s with todoList := s.todoList ++ [li], taskInput := "", dueDateInput := "",
             prioritySelect := "low", categoryInput := "" }

/-- What was clicked inside a list item. -/
inductive Target where
  | deleteBtn
  | completeBtn
  | other
deriving DecidableEq, Repr

/-- `handleListAction(event)` for a click whose closest `li` is the child at position
`item` (no such child: the handler returns at once). The handler has a delete branch and
a complete branch only: a click elsewhere in the item, the task text included, does
nothing (editing starts from the separate `dblclick` listener, although the docstring
of the function also names editing). -/
def handleListAction (s : Page) (item : Nat) (target : Target) : Page :=
  match s.todoList[item]? with
  | none => s
  | some listItem =>
    match target with
    | .deleteBtn =>
      let task : DeletedTask :=
        { id := listItem.taskId, text := listItem.text, dueDate := listItem.dueDate,
          priority := listItem.priority, category := listItem.category,
          completed := listItem.completed, index := none }
      { s with deletedTasks := s.deletedTasks ++ [task],
               todoList := s.todoList.eraseIdx item }
    | .completeBtn =>
      { s with todoList := s.todoList.set item { listItem with completed := !listItem.completed } }
    | .other => s

/-- `parent.insertBefore(li, children[i])` for `i < children.length`. -/
def insertBefore (children : List Li) (i : Nat) (li : Li) : List Li :=
  children.take i ++ li :: children.drop i

/-- `restoreLastTask()`. -/
def restoreLastTask (s : Page) (now : Nat) : Page :=
  match s.deletedTasks.getLast? with
  | none => s
  | some lastTask =>
    let li := createListItem lastTask.text lastTask.dueDate lastTask.priority
      lastTask.category lastTask.completed now
    let children := s.todoList
    let todoList :=
      match lastTask.index with
      | some index =>
        if index < children.length then insertBefore children index li else children ++ [li]
      | none => children ++ [li]
    { s with deletedTasks := s.deletedTasks.dropLast, todoList := todoList }

/-- The record the delete action pushes for a list item. -/
def Li.toDeleted (li : Li) : DeletedTask :=
  { id := li.taskId, text := li.text, dueDate := li.dueDate, priority := li.priority,
    category := li.category, completed := li.completed, index := none }

/-- A run of delete clicks, at the given child positions, in order. -/
def deleteAll (s : Page) (items : List Nat) : Page :=
  items.foldl (fun st item => handleListAction st item Target.deleteBtn) s

/-- The list items removed by `deleteAll s items`, in deletion order (a click that hits
no list item removes nothing). -/
def deletedItems (s : Page) : List Nat → List Li
  | [] => []
  | item :: items =>
    match s.todoList[item]? with
    | none => deletedItems (handleListAction s item Target.deleteBtn) items
    | some li => li :: deletedItems (handleListAction s item Target.deleteBtn) items

/-- A run of `restoreLastTask()` calls; `clock` lists the value of `Date.now()` at each. -/
def restoreAll (s : Page) (clock : List Nat) : Page :=
  clock.foldl restoreLastTask s

/-- The list item `restoreLastTask` builds for a deleted list item `t` at time `now`. -/
def recreate (t : Li) (now : Nat) : Li :=
  createListItem t.text t.dueDate t.priority t.category t.completed now

/-- The six task attributes of the data model: id, text, priority, category, due date
and completion flag. -/
structure Task where
  id : Nat
  text : String
  priority : String
  category : String
  dueDate : String
  completed : Bool
deriving DecidableEq, Repr

/-- The task shown by a list item. -/
def Li.task (li : Li) : Task :=
  { id := li.taskId, text := li.text, priority := li.priority, category := li.category,
    dueDate := li.dueDate, completed := li.completed }

/-- A user operation on the task list: filling the form and adding, clicking a delete
button, or restoring. `now` is the value `Date.now()` has when the operation runs. -/
inductive Op where
  | add (taskInput dueDateInput prioritySelect categoryInput : String) (now : Nat)
  | delete (item : Nat)
  | restore (now : Nat)
deriving DecidableEq, Repr

/-- The clock value of an operation that reads the clock. -/
def Op.now? : Op → Option Nat
  | .add _ _ _ _ now => some now
  | .delete _ => none
  | .restore now => some now

/-- One operation. -/
def step (toLowerCase : String → String) (s : Page) : Op → Page
  | .add taskInput dueDateInput prioritySelect categoryInput now =>
    addTask toLowerCase
      { s with taskInput := taskInput, dueDateInput := dueDateInput,
               prioritySelect := prioritySelect, categoryInput := categoryInput } now
  | .delete item => handleListAction s item Target.deleteBtn
  | .restore now => restoreLastTask s now

/-- A sequence of operations. -/
def run (toLowerCase : String → String) (s : Page) (ops : List Op) : Page :=
  ops.foldl (step toLowerCase) s

/-- The `data-task-id` values of the list, in order. -/
def ids (s : Page) : List Nat := s.todoList.map Li.taskId

/-- The positions of the tasks: the index of each child of the list. -/
def positions (s : Page) : List Nat := s.todoList.enum.map Prod.fst

/-! ## Search, filter and sort -/

/-- The `SortCompare` rule of `Array.prototype.sort`: a `NaN` returned by the comparator
(`none`) counts as `+0`. -/
def sortCompare {α : Type} (comparefn : α → α → Option Int) (a b : α) : Int :=
  (comparefn a b).getD 0

/-- `array.sort(comparefn)`: stable insertion sort; `a` stays before `b` when the
comparator does not return a positive number for `(a, b)`. For a consistent comparator
every stable sort gives this result; a list on whose neighbours the comparator returns
`0` or `NaN` throughout is left as it is. -/
def arraySort {α : Type} (comparefn : α → α → Option Int) (l : List α) : List α :=
  l.insertionSort (fun a b => sortCompare comparefn a b ≤ 0)

/-- The property names an object literal inherits from `Object.prototype` (the standard
members and the browser members of Annex B). -/
def inheritedMember (p : String) : Bool :=
  p = "constructor" || p = "__proto__" || p = "hasOwnProperty" || p = "isPrototypeOf" ||
  p = "propertyIsEnumerable" || p = "toLocaleString" || p = "toString" || p = "valueOf" ||
  p = "__defineGetter__" || p = "__defineSetter__" || p = "__lookupGetter__" ||
  p = "__lookupSetter__"

/-- The number that `priorityOrder[p] || 0` contributes to the subtraction, for the
literal `{ high: 3, medium: 2, low: 1 }`: the own property for the three keys; for a name
inherited from `Object.prototype` the lookup yields the inherited function or object,
which is truthy (so `|| 0` does not apply) and converts to `NaN`, here `none`; for every
other string the lookup is `undefined` and the value is `0`. -/
def priorityOrder (p : String) : Option Int :=
  if p = "high" then some 3 else if p = "medium" then some 2 else if p = "low" then some 1
  else if inheritedMember p then none else some 0

/-- The comparator of the `priority` sort: `priorityB - priorityA`, `NaN` when either
operand is not a number. -/
def comparePriority (a b : Li) : Option Int :=
  match priorityOrder a.priority, priorityOrder b.priority with
  | some priorityA, some priorityB => some (priorityB - priorityA)
  | _, _ => none

/-- The comparator of the `dueDate` sort: `dateA - dateB` on time values, `NaN` when
either date is invalid. -/
def compareDueDate (parseDate : String → Option Int) (a b : Li) : Option Int :=
  match parseDate a.dueDate, parseDate b.dueDate with
  | some dateA, some dateB => some (dateA - dateB)
  | _, _ => none

/-- The visibility computed in the filter loop of `filterAndSortTasks`. -/
def isVisible (toLowerCase : String → String) (searchTerm activeFilter : String)
    (task : Li) : Bool :=
  let text := toLowerCase task.text
  let isCompleted := task.completed
  let isMatch := includes text searchTerm
  if activeFilter = "all" then isMatch
  else if activeFilter = "pending" then isMatch && !isCompleted
  else if activeFilter = "completed" then isMatch && isCompleted
  else false

/-- The closing loop `tasks.forEach(task => todoList.appendChild(task))`: appending a
node that is already a child moves it to the end. -/
def reappend (children tasks : List Li) : List Li :=
  tasks.foldl (fun c task => c.erase task ++ [task]) children

/-- `filterAndSortTasks()` with the search box holding `searchInput`, the active filter
button `activeFilter` and the sort selector at `sortBy`; the result is the list of
children afterwards. -/
def filterAndSortTasks (toLowerCase : String → String) (parseDate : String → Option Int)
    (searchInput activeFilter sortBy : String) (todoList : List Li) : List Li :=
  let searchTerm := toLowerCase searchInput
  let tasks := todoList.map fun task =>
    { task with display :=
        if isVisible toLowerCase searchTerm activeFilter task then "flex" else "none" }
  let sorted :=
    if sortBy = "priority" then arraySort comparePriority tasks
    else if sortBy = "dueDate" then arraySort (compareDueDate parseDate) tasks
    else tasks
  reappend tasks sorted

/-- ASCII lower-casing, a sample `toLowerCase` for concrete runs. -/
def asciiLower (s : String) : String := ⟨s.data.map Char.toLower⟩

/-- Days from 1970-01-01 to the civil date `y-m-d` (proleptic Gregorian calendar). -/
def daysFromCivil (y m d : Int) : Int :=
  let y' := if m ≤ 2 then y - 1 else y
  let era := y' / 400
  let yoe := y' - era * 400
  let mp := (m + 9) % 12
  let doy := (153 * mp + 2) / 5 + d - 1
  let doe := yoe * 365 + yoe / 4 - yoe / 100 + doy
  era * 146097 + doe - 719468

/-- Number of days of month `m` in year `y`. -/
def daysInMonth (y m : Nat) : Nat :=
  if m = 2 then (if y % 4 = 0 ∧ (y % 100 ≠ 0 ∨ y % 400 = 0) then 29 else 28)
  else if m = 4 ∨ m = 6 ∨ m = 9 ∨ m = 11 then 30 else 31

/-- The value of a decimal digit. -/
def digit? (c : Char) : Option Nat :=
  if c.isDigit then some (c.toNat - 48) else none

/-- A sample `new Date(s)`: the time value (milliseconds since the epoch, UTC) of a
date-only string `YYYY-MM-DD` of the ECMAScript date-time format, the form an
`<input type="date">` holds; every other string, the empty one included, is an invalid
date. -/
def parseIsoDate (s : String) : Option Int :=
  match s.data with
  | [y1, y2, y3, y4, '-', m1, m2, '-', d1, d2] =>
    match digit? y1, digit? y2, digit? y3, digit? y4, digit? m1, digit? m2,
        digit? d1, digit? d2 with
    | some a, some b, some c, some d, some e, some f, some g, some h =>
      let y := a * 1000 + b * 100 + c * 10 + d
      let m := e * 10 + f
      let dd := g * 10 + h
      if 1 ≤ m ∧ m ≤ 12 ∧ 1 ≤ dd ∧ dd ≤ daysInMonth y m then
        some (daysFromCivil y m dd * 86400000)
      else none
    | _, _, _, _, _, _, _, _ => none
  | _ => none

/-! ## Progress -/

/-- A finite non-negative double, held as the fraction `num / den`. -/
structure Double where
  num : Nat
  den : Nat
deriving DecidableEq, Repr

/-- The rational value of a double. -/
def Double.val (x : Double) : ℚ := (x.num : ℚ) / (x.den : ℚ)

/-- The integer nearest to `n / d`, ties to the even one. -/
def roundTiesEven (n d : Nat) : Nat :=
  let q := n / d
  let r := n % d
  if 2 * r < d then q else if d < 2 * r then q + 1 else if q % 2 = 0 then q else q + 1

/-- The number of halvings that bring `n` below 2, within `fuel` steps. -/
def halvings : Nat → Nat → Nat
  | 0, _ => 0
  | fuel + 1, n => if n < 2 then 0 else halvings fuel (n / 2) + 1

/-- The integer logarithm `⌊log₂ n⌋` (`0` for `n = 0`). -/
def floorLog2 (n : Nat) : Nat := halvings n n

/-- The binary exponent `⌊log₂ (n / d)⌋` of a positive fraction. -/
def binade (n d : Nat) : Int :=
  let e : Int := (floorLog2 n : Int) - (floorLog2 d : Int)
  if d * 2 ^ (floorLog2 n - floorLog2 d) ≤ n * 2 ^ (floorLog2 d - floorLog2 n) then e
  else e - 1

/-- IEEE 754 binary64 rounding (to nearest, ties to even) of the fraction `n / d`: the
53-bit significand is the rounded quotient after scaling into `[2^52, 2^53)`. The
exponent range is not bounded, which agrees with binary64 for magnitudes from `2^-1022`
up to `2^1024`. -/
def toDouble (n d : Nat) : Double :=
  if n = 0 then { num := 0, den := 1 }
  else
    let s : Int := 52 - binade n d
    let up := 2 ^ s.toNat
    let dn := 2 ^ (-s).toNat
    { num := roundTiesEven (n * up) (d * dn) * dn, den := up }

/-- The double of an integer below `2^53` (such as a `length`). -/
def Double.ofNat (k : Nat) : Double := { num := k, den := 1 }

/-- Double division `a / b`. -/
def Double.div (a b : Double) : Double := toDouble (a.num * b.den) (a.den * b.num)

/-- Double multiplication `a * b`. -/
def Double.mul (a b : Double) : Double := toDouble (a.num * b.num) (a.den * b.den)

/-- `Math.round(x)` for `x ≥ 0`: the nearest integer, ties towards `+∞`, that is
`⌊x + 1/2⌋`. -/
def mathRound (x : Double) : Nat := (2 * x.num + x.den) / (2 * x.den)

/-- The percentage computed by `updateProgress` from the two counts. -/
def percentage (completedTasks totalTasks : Nat) : Nat :=
  if totalTasks > 0 then
    mathRound ((Double.div (Double.ofNat completedTasks) (Double.ofNat totalTasks)).mul
      (Double.ofNat 100))
  else 0

/-- `updateProgress()`: the percentage written to the progress bar and its label. -/
def updateProgress (todoList : List Li) : Nat :=
  let totalTasks := todoList.length
  let completedTasks := (todoList.filter (fun li => li.completed)).length
  percentage completedTasks totalTasks

/-- The exact percentage `completed / total * 100` rounded to the nearest integer with
halves rounded up: `⌊100 c / t + 1/2⌋`. -/
def exactPercentage (completedTasks totalTasks : Nat) : Nat :=
  (200 * completedTasks + totalTasks) / (2 * totalTasks)

/-! ## Drag and drop -/

/-- A finite double of either sign, held as the fraction `num / den`. -/
structure Number where
  num : Int
  den : Nat
deriving DecidableEq, Repr

/-- The rational value of a number. -/
def Number.val (x : Number) : ℚ := (x.num : ℚ) / (x.den : ℚ)

/-- IEEE 754 binary64 rounding of the signed fraction `n / d` (round to nearest, ties to
even, is symmetric in the sign); the exponent range is not bounded, as for `toDouble`.
A zero of either sign is the fraction `0`, which compares like both. -/
def Number.round (n : Int) (d : Nat) : Number :=
  let m := toDouble n.natAbs d
  { num := if n < 0 then -(m.num : Int) else (m.num : Int), den := m.den }

/-- The double of an integer of magnitude below `2^53`. -/
def Number.ofInt (k : Int) : Number := { num := k, den := 1 }

/-- Double subtraction `a - b`. -/
def Number.sub (a b : Number) : Number :=
  Number.round (a.num * b.den - b.num * a.den) (a.den * b.den)

/-- Double division `a / b` by a non-zero `b`. -/
def Number.div (a b : Number) : Number :=
  Number.round (a.num * b.den * b.num.sign) (a.den * b.num.natAbs)

/-- The comparison `a < b`. -/
def Number.lt (a b : Number) : Bool := decide (a.num * b.den < b.num * a.den)

/-- The part of `getBoundingClientRect()` that is read. -/
structure DOMRect where
  top : Number
  height : Number
deriving DecidableEq, Repr

/-- The accumulator of the `reduce` in `getDragAfterElement`: `offset` starts at
`Number.NEGATIVE_INFINITY` (`none`) and `element` is absent at the start. -/
structure Closest (α : Type) where
  offset : Option Number
  element : Option α

/-- The offset `y - box.top - box.height / 2` of a box, as the three double operations
compute it. -/
def dragOffset (y : Number) (box : DOMRect) : Number :=
  (y.sub box.top).sub (box.height.div (Number.ofInt 2))

/-- The callback of the `reduce` in `getDragAfterElement`. -/
def dragStep {α : Type} (getBoundingClientRect : α → DOMRect) (y : Number)
    (closest : Closest α) (child : α) : Closest α :=
  let box := getBoundingClientRect child
  let offset := (y.sub box.top).sub (box.height.div (Number.ofInt 2))
  if offset.lt (Number.ofInt 0) &&
      (match closest.offset with
       | none => true
       | some closestOffset => closestOffset.lt offset) then
    { offset := some offset, element := some child }
  else closest

/-- `getDragAfterElement(container, y)`; `dragging` says which children carry the class
`dragging`; `none` is the `undefined` element of the initial accumulator. -/
def getDragAfterElement {α : Type} (dragging : α → Bool)
    (getBoundingClientRect : α → DOMRect) (container : List α) (y : Number) : Option α :=
  let draggableElements := container.filter (fun li => !dragging li)
  (draggableElements.foldl (dragStep getBoundingClientRect y)
    { offset := none, element := none }).element

/-- The exact vertical midpoint `top + height / 2` of a box. -/
def midpoint (box : DOMRect) : ℚ := box.top.val + box.height.val / 2

/-- The state of the accumulator of `getDragAfterElement` after the elements `l`: either
nothing is selected and no element of `l` has a negative computed offset, or the selected
element `e` splits `l` as `pre ++ e :: post`, has a negative computed offset, every
negative offset in `pre` is strictly below it and every negative offset in `post` is at
most it. -/
def DragInv {α : Type} (rect : α → DOMRect) (y : Number) (l : List α) (c : Closest α) :
    Prop :=
  (c.element = none ∧ c.offset = none ∧ ∀ e ∈ l, ¬ (dragOffset y (rect e)).val < 0) ∨
  ∃ pre e post, l = pre ++ e :: post ∧ c.element = some e ∧
    c.offset = some (dragOffset y (rect e)) ∧ (dragOffset y (rect e)).val < 0 ∧
    (∀ x ∈ pre, (dragOffset y (rect x)).val < 0 →
      (dragOffset y (rect x)).val < (dragOffset y (rect e)).val) ∧
    (∀ x ∈ post, (dragOffset y (rect x)).val < 0 →
      (dragOffset y (rect x)).val ≤ (dragOffset y (rect e)).val)

/-! ## In-place editing -/

/-- The text part of a list item: the `.task-text` span, or the `.edit-input` that
replaces it while editing, with the `originalText` captured by the `dblclick` handler
and the current field value. -/
inductive TextView where
  | span (textContent : String)
  | input (originalText value : String)
deriving DecidableEq, Repr

/-- The `dblclick` handler on the text part (a double click on the edit field itself is
not on a `.task-text` element and does nothing). -/
def dblclick : TextView → TextView
  | .span textContent => .input textContent textContent
  | .input originalText value => .input originalText value

/-- The user typing `v` into the edit field. -/
def typeValue (v : String) : TextView → TextView
  | .span textContent => .span textContent
  | .input originalText _ => .input originalText v

/-- The `blur` handler of the edit field. -/
def blur : TextView → TextView
  | .span textContent => .span textContent
  | .input originalText value =>
    let newText := trim value
    if newText = "" then .input originalText originalText
    else .span newText

/-- An edit of a task whose text is `t`: a double click on the text, then for each value
of `attempts` the user types it and the field loses focus. -/
def editSession (t : String) (attempts : List String) : TextView :=
  attempts.foldl (fun view v => blur (typeValue v view)) (dblclick (.span t))

/-- Is the edit field present. -/
def TextView.editing : TextView → Bool
  | .span _ => false
  | .input _ _ => true

/-! ## Sample states -/

/-- A page holding the two tasks of the scenario of the specification. -/
def twoTasks : Page :=
  { Page.initial with
    todoList := [createListItem "Buy milk" "" "low" "" false 1,
                 createListItem "File taxes" "2024-04-15" "high" "finance" false 2] }

/-- Two well-formed additions made while the clock shows the same millisecond. -/
def sameClockAdds : List Op :=
  [Op.add "Buy milk" "" "low" "" 0, Op.add "File taxes" "2024-04-15" "high" "finance" 0]

/-- A task with a due date followed by a task without one. -/
def datedThenUndated : List Li :=
  [createListItem "File taxes" "2024-04-15" "high" "finance" false 1,
   createListItem "Buy milk" "" "low" "" false 2]

/-- Two dated tasks, the later date first, with an undated task between them. -/
def undatedBetween : List Li :=
  [createListItem "Book flights" "2024-05-01" "medium" "" false 1,
   createListItem "Buy milk" "" "low" "" false 2,
   createListItem "File taxes" "2024-04-15" "high" "finance" false 3]

/-- Three tasks whose priorities are low, `constructor` and high. -/
def inheritedPriority : List Li :=
  [createListItem "Buy milk" "" "low" "" false 1,
   createListItem "Call home" "" "constructor" "" false 2,
   createListItem "File taxes" "2024-04-15" "high" "finance" false 3]

/-- Three boxes of height 40 stacked at 0, 50 and 100, with midpoints 20, 70 and 120. -/
def threeBoxes : List DOMRect :=
  [{ top := Number.ofInt 0, height := Number.ofInt 40 },
   { top := Number.ofInt 50, height := Number.ofInt 40 },
   { top := Number.ofInt 100, height := Number.ofInt 40 }]

/-- A box whose top and height are the doubles nearest to `2644/60` and `7792/60`; its
exact midpoint is `2^-47` above 109. -/
def roundedBox : DOMRect :=
  { top := Number.round 2644 60, height := Number.round 7792 60 }

/-- Forty tasks, the first twenty-three of them completed. -/
def fortyTasks : List Li :=
  (List.range 40).map fun i => createListItem "task" "" "low" "" (decide (i < 23)) (i + 1)

/-! ## Adding a task -/

/-- C8: `addTask` with an input that trims to the empty string leaves the page (and so
the task list) unchanged; otherwise the new list is the old list, in the same order,
followed by exactly one new task whose text is the trimmed input, whose priority is the
lower-cased selected priority and which is not completed. -/
theorem addTask_spec (toLowerCase : String → String) (s : Page) (now : Nat) :
    (trim s.taskInput = "" → addTask toLowerCase s now = s) ∧
    (trim s.taskInput ≠ "" →
      ∃ li : Li, (addTask toLowerCase s now).todoList = s.todoList ++ [li] ∧
        li.text = trim s.taskInput ∧ li.priority = toLowerCase s.prioritySelect ∧
        li.completed = false ∧ li.taskId = now ∧ li.dueDate = s.dueDateInput ∧
        li.category = trim s.categoryInput) := by
  constructor
  · intro h
    simp [addTask, h]
  · intro h
    refine ⟨createListItem (trim s.taskInput) s.dueDateInput (toLowerCase s.prioritySelect)
      (trim s.categoryInput) false now, ?_, rfl, rfl, rfl, rfl, rfl, rfl⟩
    simp [addTask, h]

/-! ## Editing a task -/

theorem blur_input (t v : String) :
    blur (.input t v) = if trim v = "" then .input t t else .span (trim v) := rfl

theorem editSession_nil (t : String) : editSession t [] = .input t t := rfl

theorem foldl_blur_span (u : String) (vs : List String) :
    vs.foldl (fun view v => blur (typeValue v view)) (.span u) = .span u := by
  induction vs with
  | nil => rfl
  | cons v vs ih =>
    rw [List.foldl_cons]
    exact ih

theorem foldl_blur_input (t : String) (vs : List String) :
    vs.foldl (fun view v => blur (typeValue v view)) (.input t t) =
      match vs.find? (fun v => trim v ≠ "") with
      | some v => .span (trim v)
      | none => .input t t := by
  induction vs with
  | nil => rfl
  | cons v vs ih =>
    rw [List.foldl_cons]
    have e : blur (typeValue v (.input t t)) =
        if trim v = "" then .input t t else .span (trim v) := blur_input t v
    rw [e]
    by_cases h : trim v = ""
    · rw [if_pos h, ih, List.find?_cons_of_neg _ (by simpa using h)]
    · rw [if_neg h, foldl_blur_span, List.find?_cons_of_pos _ (by simpa using h)]

/-- C9: for a task under edit with original text `t` and entered value `v`, a blur with
`v` trimming to the empty string keeps the edit field, its value reset to `t`; a blur
with `v` trimming to a non-empty string ends the edit with text exactly `trim v`; a blur
never produces an empty text; and a whole edit (any number of attempts) ends either still
editing with the field at `t`, or with the first non-empty trimmed value as text. -/
theorem blur_spec (t v : String) :
    (trim v = "" → blur (.input t v) = .input t t) ∧
    (trim v ≠ "" → blur (.input t v) = .span (trim v) ∧
      (blur (.input t v)).editing = false) ∧
    blur (.input t v) ≠ .span "" ∧
    (∀ attempts : List String, editSession t attempts ≠ .span "" ∧
      editSession t attempts =
        match attempts.find? (fun a => trim a ≠ "") with
        | some a => .span (trim a)
        | none => .input t t) := by
  refine ⟨fun h => by simp [blur_input, h], fun h => by simp [blur_input, h, TextView.editing],
    ?_, fun attempts => ?_⟩
  · rw [blur_input]
    split_ifs with h
    · simp
    · intro hc
      exact h (TextView.span.inj hc)
  · have key : editSession t attempts =
        match attempts.find? (fun a => trim a ≠ "") with
        | some a => .span (trim a)
        | none => .input t t := foldl_blur_input t attempts
    refine ⟨?_, key⟩
    rw [key]
    cases hf : attempts.find? (fun a => trim a ≠ "") with
    | none => simp
    | some a =>
      have := List.find?_some hf
      simp only [ne_eq, decide_eq_true_eq] at this
      intro hc
      exact this (TextView.span.inj hc)

/-! ## Delete and restore -/

theorem handleListAction_delete (s : Page) (item : Nat) (li : Li)
    (h : s.todoList[item]? = some li) :
    handleListAction s item Target.deleteBtn =
      { s with deletedTasks := s.deletedTasks ++ [li.toDeleted],
               todoList := s.todoList.eraseIdx item } := by
  simp [handleListAction, h, Li.toDeleted]

theorem handleListAction_none (s : Page) (item : Nat) (target : Target)
    (h : s.todoList[item]? = none) : handleListAction s item target = s := by
  simp [handleListAction, h]

theorem restoreLastTask_nil (p : Page) (now : Nat) (h : p.deletedTasks = []) :
    restoreLastTask p now = p := by
  simp [restoreLastTask, h]

theorem restoreLastTask_concat (p : Page) (b : List DeletedTask) (r : Li) (now : Nat)
    (h : p.deletedTasks = b ++ [r.toDeleted]) :
    restoreLastTask p now =
      { p with deletedTasks := b, todoList := p.todoList ++ [recreate r now] } := by
  simp [restoreLastTask, h, Li.toDeleted, recreate]

theorem deleteAll_deletedTasks (items : List Nat) :
    ∀ s : Page, (deleteAll s items).deletedTasks =
      s.deletedTasks ++ (deletedItems s items).map Li.toDeleted := by
  induction items with
  | nil => intro s; simp [deleteAll, deletedItems]
  | cons item items ih =>
    intro s
    have step : deleteAll s (item :: items) =
        deleteAll (handleListAction s item Target.deleteBtn) items := rfl
    rw [step, ih]
    cases h : s.todoList[item]? with
    | none => simp [deletedItems, h, handleListAction_none s item _ h]
    | some li => simp [deletedItems, h, handleListAction_delete s item li h]

theorem restoreAll_stack (clock : List Nat) :
    ∀ (p : Page) (b : List DeletedTask) (recent : List Li),
      p.deletedTasks = b ++ (recent.map Li.toDeleted).reverse →
      clock.length ≤ recent.length →
      (restoreAll p clock).deletedTasks =
          b ++ ((recent.drop clock.length).map Li.toDeleted).reverse ∧
        (restoreAll p clock).todoList =
          p.todoList ++ List.zipWith recreate recent clock := by
  induction clock with
  | nil => intro p b recent h _; simp [restoreAll, h]
  | cons now clock ih =>
    intro p b recent h hk
    cases recent with
    | nil => simp at hk
    | cons r recent =>
      have h1 : p.deletedTasks = (b ++ (recent.map Li.toDeleted).reverse) ++ [r.toDeleted] := by
        simp [h]
      have step : restoreAll p (now :: clock) = restoreAll (restoreLastTask p now) clock := rfl
      rw [step, restoreLastTask_concat p _ r now h1]
      have hk1 : clock.length ≤ recent.length := by simpa using hk
      obtain ⟨e1, e2⟩ := ih
        ({ p with deletedTasks := b ++ (recent.map Li.toDeleted).reverse
                  todoList := p.todoList ++ [recreate r now] } : Page) b recent rfl hk1
      rw [e1, e2]
      simp

/-- C1 (the code departs from the claim): on the page with the two tasks "Buy milk" and
"File taxes", deleting the first task and restoring at once (clock at 3) gives the list
"File taxes", "Buy milk": the restored task is at the end and carries the new id 3, so
the list differs from the one before the delete. Deleting the last task instead and
restoring at once keeps the order but not the id. -/
theorem delete_restore_first_task :
    ((restoreLastTask (handleListAction twoTasks 0 Target.deleteBtn) 3).todoList.map Li.task =
      [{ id := 2, text := "File taxes", priority := "high", category := "finance",
         dueDate := "2024-04-15", completed := false },
       { id := 3, text := "Buy milk", priority := "low", category := "",
         dueDate := "", completed := false }]) ∧
    (restoreLastTask (handleListAction twoTasks 0 Target.deleteBtn) 3).todoList.map Li.task ≠
      twoTasks.todoList.map Li.task ∧
    ((restoreLastTask (handleListAction twoTasks 1 Target.deleteBtn) 3).todoList.map Li.task =
      [{ id := 1, text := "Buy milk", priority := "low", category := "",
         dueDate := "", completed := false },
       { id := 3, text := "File taxes", priority := "high", category := "finance",
         dueDate := "2024-04-15", completed := false }]) := by
  decide

/-- C10: `deletedTasks` is a last-in-first-out stack. After the deletions of
`T1, ..., Tn` (the list `deletedItems s items`) the buffer is the old buffer followed by
their records in deletion order; `k ≤ n` restores then leave the old buffer followed by
the records of `T1, ..., T(n-k)` and append to the list, in this order, re-creations of
`Tn, T(n-1), ..., T(n-k+1)` (same text, due date, priority, category and completed
flag); a restore on a non-empty buffer removes exactly one entry; a restore on an empty
buffer changes nothing. -/
theorem deletedTasks_lifo (s : Page) (items : List Nat) (clock : List Nat)
    (hk : clock.length ≤ (deletedItems s items).length) :
    (deleteAll s items).deletedTasks =
        s.deletedTasks ++ (deletedItems s items).map Li.toDeleted ∧
      (restoreAll (deleteAll s items) clock).deletedTasks =
        s.deletedTasks ++ ((deletedItems s items).take
          ((deletedItems s items).length - clock.length)).map Li.toDeleted ∧
      (restoreAll (deleteAll s items) clock).todoList =
        (deleteAll s items).todoList ++
          List.zipWith recreate (deletedItems s items).reverse clock ∧
      (∀ (p : Page) (now : Nat), p.deletedTasks ≠ [] →
        (restoreLastTask p now).deletedTasks.length + 1 = p.deletedTasks.length) ∧
      (∀ (p : Page) (now : Nat), p.deletedTasks = [] → restoreLastTask p now = p) := by
  have hd := deleteAll_deletedTasks items s
  have hr := restoreAll_stack clock (deleteAll s items) s.deletedTasks
    (deletedItems s items).reverse (by simp [hd]) (by simpa using hk)
  refine ⟨hd, ?_, hr.2, ?_, fun p now h => restoreLastTask_nil p now h⟩
  · rw [hr.1, List.drop_reverse]
    simp
  · intro p now hne
    cases h : p.deletedTasks.getLast? with
    | none => exact absurd (List.getLast?_eq_none_iff.mp h) hne
    | some lastTask =>
      have hlen : 0 < p.deletedTasks.length := List.length_pos.mpr hne
      simp only [restoreLastTask, h, List.length_dropLast]
      omega

/-- Witness for `deletedTasks_lifo`: on the two-task page, delete the first task twice
(removing both tasks) and restore once. -/
theorem deletedTasks_lifo_witness :
    [7].length ≤ (deletedItems twoTasks [0, 0]).length ∧
      (restoreAll (deleteAll twoTasks [0, 0]) [7]).deletedTasks =
        twoTasks.deletedTasks ++ ((deletedItems twoTasks [0, 0]).take
          ((deletedItems twoTasks [0, 0]).length - [7].length)).map Li.toDeleted ∧
      (restoreAll (deleteAll twoTasks [0, 0]) [7]).todoList =
        (deleteAll twoTasks [0, 0]).todoList ++
          List.zipWith recreate (deletedItems twoTasks [0, 0]).reverse [7] ∧
      (restoreAll (deleteAll twoTasks [0, 0]) [7]).todoList =
        [createListItem "File taxes" "2024-04-15" "high" "finance" false 7] :=
  ⟨by decide, (deletedTasks_lifo twoTasks [0, 0] [7] (by decide)).2.1,
    (deletedTasks_lifo twoTasks [0, 0] [7] (by decide)).2.2.1, by decide⟩

/-! ## Ids and positions under add, delete and restore -/

theorem ids_step (toLowerCase : String → String) (s : Page) (op : Op) :
    (ids (step toLowerCase s op)).Sublist (ids s) ∨
      ∃ now, op.now? = some now ∧ (ids (step toLowerCase s op)).Perm (now :: ids s) := by
  cases op with
  | add taskInput dueDateInput prioritySelect categoryInput now =>
    by_cases h : trim taskInput = ""
    · left
      simp [step, addTask, h, ids]
    · right
      refine ⟨now, rfl, ?_⟩
      have e : ids (step toLowerCase s (Op.add taskInput dueDateInput prioritySelect
          categoryInput now)) = ids s ++ [now] := by
        simp [step, addTask, h, ids, createListItem]
      rw [e]
      exact List.perm_append_singleton now (ids s)
  | delete item =>
    left
    cases h : s.todoList[item]? with
    | none => simp [step, handleListAction_none s item _ h]
    | some li =>
      simp only [step, handleListAction_delete s item li h, ids]
      exact (List.eraseIdx_sublist _ _).map _
  | restore now =>
    cases h : s.deletedTasks.getLast? with
    | none =>
      left
      simp [step, restoreLastTask, h]
    | some lastTask =>
      right
      refine ⟨now, rfl, ?_⟩
      cases hi : lastTask.index with
      | none =>
        have e : ids (step toLowerCase s (Op.restore now)) = ids s ++ [now] := by
          simp [step, restoreLastTask, h, hi, ids, createListItem]
        rw [e]
        exact List.perm_append_singleton now (ids s)
      | some index =>
        by_cases hlt : index < s.todoList.length
        · have e : ids (step toLowerCase s (Op.restore now)) =
              (ids s).take index ++ now :: (ids s).drop index := by
            simp [step, restoreLastTask, h, hi, hlt, ids, createListItem, insertBefore,
              List.map_take, List.map_drop]
          rw [e]
          have := @List.perm_middle _ now ((ids s).take index) ((ids s).drop index)
          rwa [List.take_append_drop] at this
        · have e : ids (step toLowerCase s (Op.restore now)) = ids s ++ [now] := by
            simp [step, restoreLastTask, h, hi, hlt, ids, createListItem]
          rw [e]
          exact List.perm_append_singleton now (ids s)

theorem run_ids_nodup (toLowerCase : String → String) (ops : List Op) :
    ∀ s : Page, (ids s).Nodup →
      (∀ id ∈ ids s, ∀ t ∈ ops.filterMap Op.now?, id < t) →
      (ops.filterMap Op.now?).Pairwise (· < ·) →
      (ids (run toLowerCase s ops)).Nodup := by
  induction ops with
  | nil => intro s h _ _; exact h
  | cons op ops ih =>
    intro s hnd hlt hpw
    have hrun : run toLowerCase s (op :: ops) = run toLowerCase (step toLowerCase s op) ops :=
      rfl
    rw [hrun]
    rcases ids_step toLowerCase s op with hsub | ⟨now, hnow, hperm⟩
    · have hpw1 : (ops.filterMap Op.now?).Pairwise (· < ·) := by
        cases hn : op.now? with
        | none => simpa [List.filterMap_cons, hn] using hpw
        | some t =>
          rw [List.filterMap_cons, hn] at hpw
          exact (List.pairwise_cons.mp hpw).2
      refine ih _ (hnd.sublist hsub) (fun id hid t ht => ?_) hpw1
      refine hlt id (hsub.subset hid) t ?_
      cases hn : op.now? with
      | none => simpa [List.filterMap_cons, hn] using ht
      | some u => simp [List.filterMap_cons, hn, ht]
    · rw [List.filterMap_cons, hnow] at hpw hlt
      obtain ⟨hhead, hpw1⟩ := List.pairwise_cons.mp hpw
      have hfresh : now ∉ ids s := fun hmem =>
        lt_irrefl now (hlt now hmem now (List.mem_cons_self _ _))
      refine ih _ (hperm.nodup_iff.mpr (List.nodup_cons.mpr ⟨hfresh, hnd⟩))
        (fun id hid t ht => ?_) hpw1
      rcases List.mem_cons.mp (hperm.subset hid) with rfl | hold
      · exact hhead t ht
      · exact hlt id hold t (List.mem_cons_of_mem _ ht)

/-- C5 as stated fails: two additions made while the clock shows the same value (a
non-decreasing clock) leave two tasks with the same id in the list. -/
theorem duplicate_ids_same_clock :
    (sameClockAdds.filterMap Op.now?).Pairwise (· ≤ ·) ∧
      ¬ (ids (run asciiLower Page.initial sameClockAdds)).Nodup := by
  decide

/-- C5 amended: for every sequence of add, delete and restore operations from the empty
list whose clock values are strictly increasing, the list never holds two tasks with the
same id, and the positions are the dense indices `0, ..., N-1`. -/
theorem ids_nodup_positions_dense (toLowerCase : String → String) (ops : List Op)
    (hclock : (ops.filterMap Op.now?).Pairwise (· < ·)) :
    (ids (run toLowerCase Page.initial ops)).Nodup ∧
      positions (run toLowerCase Page.initial ops) =
        List.range (run toLowerCase Page.initial ops).todoList.length :=
  ⟨run_ids_nodup toLowerCase ops Page.initial (by simp [ids, Page.initial])
      (by simp [ids, Page.initial]) hclock,
    by simp [positions, List.enum_map_fst]⟩

/-- Witness for `ids_nodup_positions_dense`: add two tasks, delete the first, restore
it, with the clock at 1, 2 and 5. -/
theorem ids_nodup_positions_dense_witness :
    ([Op.add "Buy milk" "" "low" "" 1, Op.add "File taxes" "2024-04-15" "High" "finance" 2,
        Op.delete 0, Op.restore 5].filterMap Op.now?).Pairwise (· < ·) ∧
      (ids (run asciiLower Page.initial
        [Op.add "Buy milk" "" "low" "" 1, Op.add "File taxes" "2024-04-15" "High" "finance" 2,
          Op.delete 0, Op.restore 5])).Nodup ∧
      positions (run asciiLower Page.initial
        [Op.add "Buy milk" "" "low" "" 1, Op.add "File taxes" "2024-04-15" "High" "finance" 2,
          Op.delete 0, Op.restore 5]) = [0, 1] :=
  ⟨by decide,
    (ids_nodup_positions_dense asciiLower _ (by decide)).1,
    by decide⟩

/-! ## Search, filter and sort -/

theorem startsWith_iff : ∀ s t : List Char, startsWith s t = true ↔ t <+: s
  | _, [] => by simp [startsWith]
  | [], _ :: _ => by simp [startsWith]
  | c :: s, d :: t => by
    simp only [startsWith, Bool.and_eq_true, beq_iff_eq, List.cons_prefix_cons,
      startsWith_iff s t]
    exact and_congr_left fun _ => eq_comm

theorem includesChars_iff : ∀ s t : List Char, includesChars s t = true ↔ t <:+: s
  | [], t => by
    simp only [includesChars, startsWith_iff, List.prefix_nil]
    exact ⟨fun h => h ▸ List.infix_refl _, fun h => List.eq_nil_of_infix_nil h⟩
  | c :: s, t => by
    simp only [includesChars, Bool.or_eq_true, startsWith_iff, includesChars_iff s t,
      List.infix_cons_iff]

theorem includes_iff (s t : String) : includes s t = true ↔ t.data <:+: s.data :=
  includesChars_iff s.data t.data

theorem reappend_of_perm (tasks : List Li) :
    ∀ rest done : List Li, rest.Perm tasks → reappend (rest ++ done) tasks = done ++ tasks := by
  induction tasks with
  | nil =>
    intro rest done h
    simp [List.Perm.eq_nil h, reappend]
  | cons t tasks ih =>
    intro rest done h
    have hmem : t ∈ rest := h.symm.subset (List.mem_cons_self _ _)
    have hrest : (rest.erase t).Perm tasks := by
      have := h.erase t
      rwa [List.erase_cons_head] at this
    have step : reappend (rest ++ done) (t :: tasks) =
        reappend ((rest ++ done).erase t ++ [t]) tasks := rfl
    rw [step, List.erase_append_left _ hmem, List.append_assoc, ih _ _ hrest]
    simp

theorem reappend_perm (children tasks : List Li) (h : children.Perm tasks) :
    reappend children tasks = tasks := by
  simpa using reappend_of_perm tasks children [] h

/-- The list of children after the filter loop of `filterAndSortTasks`. -/
theorem filterAndSortTasks_eq (toLowerCase : String → String)
    (parseDate : String → Option Int) (searchInput activeFilter sortBy : String)
    (todoList : List Li) :
    filterAndSortTasks toLowerCase parseDate searchInput activeFilter sortBy todoList =
      if sortBy = "priority" then
        arraySort comparePriority (todoList.map fun task =>
          { task with display :=
              if isVisible toLowerCase (toLowerCase searchInput) activeFilter task
              then "flex" else "none" })
      else if sortBy = "dueDate" then
        arraySort (compareDueDate parseDate) (todoList.map fun task =>
          { task with display :=
              if isVisible toLowerCase (toLowerCase searchInput) activeFilter task
              then "flex" else "none" })
      else
        todoList.map fun task =>
          { task with display :=
              if isVisible toLowerCase (toLowerCase searchInput) activeFilter task
              then "flex" else "none" } := by
  unfold filterAndSortTasks
  apply reappend_perm
  split_ifs
  · exact (List.perm_insertionSort _ _).symm
  · exact (List.perm_insertionSort _ _).symm
  · exact List.Perm.refl _

theorem filterAndSortTasks_perm (toLowerCase : String → String)
    (parseDate : String → Option Int) (searchInput activeFilter sortBy : String)
    (todoList : List Li) :
    (filterAndSortTasks toLowerCase parseDate searchInput activeFilter sortBy todoList).Perm
      (todoList.map fun task =>
          { task with display :=
              if isVisible toLowerCase (toLowerCase searchInput) activeFilter task
              then "flex" else "none" }) := by
  rw [filterAndSortTasks_eq]
  split_ifs
  · exact List.perm_insertionSort _ _
  · exact List.perm_insertionSort _ _
  · exact List.Perm.refl _

/-- C2: for a status filter among `all`, `pending`, `completed`, the tasks after
`filterAndSortTasks` are the tasks before it (up to order), each displayed `flex` or
`none`, and a task is displayed `flex` exactly when its lower-cased text contains the
lower-cased search term as a substring and its completion state matches the filter. -/
theorem visible_iff (toLowerCase : String → String) (parseDate : String → Option Int)
    (searchInput activeFilter sortBy : String) (todoList : List Li)
    (hfilter : activeFilter = "all" ∨ activeFilter = "pending" ∨ activeFilter = "completed") :
    ((filterAndSortTasks toLowerCase parseDate searchInput activeFilter sortBy
        todoList).map Li.task).Perm (todoList.map Li.task) ∧
      ∀ task ∈ filterAndSortTasks toLowerCase parseDate searchInput activeFilter sortBy todoList,
        (task.display = "flex" ∨ task.display = "none") ∧
        (task.display = "flex" ↔
          ((toLowerCase searchInput).data <:+: (toLowerCase task.text).data ∧
            (activeFilter = "pending" → task.completed = false) ∧
            (activeFilter = "completed" → task.completed = true))) := by
  have hperm := filterAndSortTasks_perm toLowerCase parseDate searchInput activeFilter sortBy
    todoList
  constructor
  · refine (hperm.map Li.task).trans ?_
    rw [List.map_map]
    exact List.Perm.of_eq (List.map_congr_left fun _ _ => rfl)
  · intro task hmem
    obtain ⟨t, -, rfl⟩ := List.mem_map.mp (hperm.subset hmem)
    have hvis : isVisible toLowerCase (toLowerCase searchInput) activeFilter t = true ↔
        ((toLowerCase searchInput).data <:+: (toLowerCase t.text).data ∧
          (activeFilter = "pending" → t.completed = false) ∧
          (activeFilter = "completed" → t.completed = true)) := by
      rcases hfilter with rfl | rfl | rfl
      · simp [isVisible, includes_iff]
      · simp [isVisible, includes_iff]
      · simp [isVisible, includes_iff]
    by_cases hv : isVisible toLowerCase (toLowerCase searchInput) activeFilter t = true
    · simpa [hv] using hvis.mp hv
    · have hneg := fun h => hv (hvis.mpr h)
      rw [if_neg hv]
      have hne : ("none" : String) ≠ "flex" := by decide
      exact ⟨Or.inr rfl, ⟨fun h => absurd h hne, fun h => absurd h hneg⟩⟩

/-! ### Sorting -/

theorem filter_orderedInsert {α : Type} (r : α → α → Prop) [DecidableRel r] (p : α → Bool)
    (a : α) (hp : ∀ b, ¬ r a b → ¬ (p a = true ∧ p b = true)) :
    ∀ l : List α, (l.orderedInsert r a).filter p = (a :: l).filter p
  | [] => rfl
  | b :: l => by
    by_cases h : r a b
    · simp [List.orderedInsert, h]
    · have ih := filter_orderedInsert r p a hp l
      have hnot := hp b h
      simp only [List.orderedInsert, h, if_false, List.filter_cons, ih]
      cases ha : p a <;> cases hb : p b <;> simp_all

theorem filter_insertionSort {α : Type} (r : α → α → Prop) [DecidableRel r] (p : α → Bool)
    (hp : ∀ a b, ¬ r a b → ¬ (p a = true ∧ p b = true)) :
    ∀ l : List α, (l.insertionSort r).filter p = l.filter p
  | [] => rfl
  | a :: l => by
    rw [List.insertionSort, filter_orderedInsert r p a (hp a), List.filter_cons,
      List.filter_cons, filter_insertionSort r p hp l]

theorem orderedInsert_congr {α : Type} (r s : α → α → Prop) [DecidableRel r]
    [DecidableRel s] (a : α) :
    ∀ l : List α, (∀ b ∈ l, r a b ↔ s a b) → l.orderedInsert r a = l.orderedInsert s a
  | [], _ => rfl
  | b :: l, h => by
    have hb := h b (List.mem_cons_self _ _)
    have ih := orderedInsert_congr r s a l fun c hc => h c (List.mem_cons_of_mem _ hc)
    by_cases hr : r a b
    · simp [List.orderedInsert, hr, hb.mp hr]
    · simp [List.orderedInsert, hr, mt hb.mpr hr, ih]

theorem insertionSort_congr {α : Type} (r s : α → α → Prop) [DecidableRel r]
    [DecidableRel s] :
    ∀ l : List α, (∀ a ∈ l, ∀ b ∈ l, r a b ↔ s a b) → l.insertionSort r = l.insertionSort s
  | [], _ => rfl
  | a :: l, h => by
    have ih := insertionSort_congr r s l fun x hx y hy =>
      h x (List.mem_cons_of_mem _ hx) y (List.mem_cons_of_mem _ hy)
    rw [List.insertionSort, List.insertionSort, ih]
    refine orderedInsert_congr r s a _ fun b hb => ?_
    exact h a (List.mem_cons_self _ _) b (List.mem_cons_of_mem _ ((List.mem_insertionSort s).mp hb))

theorem sorted_insertionSort_key {α : Type} (key : α → Int) (l : List α) :
    (l.insertionSort fun a b => key a ≤ key b).Pairwise fun a b => key a ≤ key b := by
  haveI : IsTotal α (fun a b => key a ≤ key b) := ⟨fun a b => le_total (key a) (key b)⟩
  haveI : IsTrans α (fun a b => key a ≤ key b) := ⟨fun _ _ _ h1 h2 => le_trans h1 h2⟩
  exact List.sorted_insertionSort (fun a b => key a ≤ key b) l

theorem filter_map_display (p : Li → Bool) (d : Li → String)
    (hp : ∀ t : Li, p { t with display := d t } = p t) (l : List Li) :
    ((l.map fun t => { t with display := d t }).filter p).map Li.task =
      (l.filter p).map Li.task := by
  induction l with
  | nil => rfl
  | cons t l ih =>
    simp only [List.map_cons, List.filter_cons, hp]
    split_ifs
    · simp only [List.map_cons, ih]
      rfl
    · exact ih

theorem priorityOrder_isSome (p : String) (h : inheritedMember p = false) :
    (priorityOrder p).isSome := by
  unfold priorityOrder
  split_ifs <;> simp_all

theorem sortCompare_priority (a b : Li) (ha : (priorityOrder a.priority).isSome)
    (hb : (priorityOrder b.priority).isSome) :
    sortCompare comparePriority a b ≤ 0 ↔
      (fun t : Li => -(priorityOrder t.priority).getD 0) a ≤
        (fun t : Li => -(priorityOrder t.priority).getD 0) b := by
  obtain ⟨x, hx⟩ := Option.isSome_iff_exists.mp ha
  obtain ⟨y, hy⟩ := Option.isSome_iff_exists.mp hb
  simp only [sortCompare, comparePriority, hx, hy, Option.getD_some]
  omega

theorem arraySort_priority_sorted (l : List Li)
    (hl : ∀ t ∈ l, (priorityOrder t.priority).isSome) :
    (arraySort comparePriority l).Pairwise fun a b => ∃ x y : Int,
      priorityOrder a.priority = some x ∧ priorityOrder b.priority = some y ∧ y ≤ x := by
  have e : arraySort comparePriority l =
      l.insertionSort fun a b => (fun t : Li => -(priorityOrder t.priority).getD 0) a ≤
        (fun t : Li => -(priorityOrder t.priority).getD 0) b :=
    insertionSort_congr _ _ l fun a ha b hb => sortCompare_priority a b (hl a ha) (hl b hb)
  rw [e]
  refine (sorted_insertionSort_key _ l).imp_of_mem fun {a b} ha hb hab => ?_
  obtain ⟨x, hx⟩ := Option.isSome_iff_exists.mp (hl a ((List.mem_insertionSort _).mp ha))
  obtain ⟨y, hy⟩ := Option.isSome_iff_exists.mp (hl b ((List.mem_insertionSort _).mp hb))
  exact ⟨x, y, hx, hy, by simpa [hx, hy] using hab⟩

theorem arraySort_priority_stable (k : Int) (l : List Li) :
    (arraySort comparePriority l).filter (fun t => priorityOrder t.priority = some k) =
      l.filter (fun t => priorityOrder t.priority = some k) := by
  refine filter_insertionSort _ _ (fun a b hab hk => hab ?_) l
  simp only [decide_eq_true_eq] at hk
  simp [sortCompare, comparePriority, hk.1, hk.2]

/-- C3 as stated fails: a task whose priority string is `constructor` does not get rank
0. The lookup returns the inherited `Object` function, the comparator returns `NaN`
against every other task, and the list low, `constructor`, high is left in that order,
with the low task before the high one. -/
theorem inherited_priority_unsorted :
    priorityOrder "constructor" = none ∧
      (filterAndSortTasks asciiLower parseIsoDate "" "all" "priority" inheritedPriority).map
          Li.priority = ["low", "constructor", "high"] ∧
      (filterAndSortTasks asciiLower parseIsoDate "" "all" "priority" inheritedPriority).map
          Li.taskId = [1, 2, 3] := by
  decide

/-- C3 amended: for a task list none of whose priority strings names a member inherited
from `Object.prototype`, `filterAndSortTasks` with sort key `priority` leaves the list
ordered by descending rank (high 3, medium 2, low 1, any other such value 0); the tasks of
each rank keep the relative order they had (the sort is stable); the tasks are the same;
and priorities low, high, medium come out as high, medium, low. -/
theorem priority_sort (toLowerCase : String → String) (parseDate : String → Option Int)
    (searchInput activeFilter : String) (todoList : List Li)
    (hown : ∀ t ∈ todoList, inheritedMember t.priority = false) :
    (filterAndSortTasks toLowerCase parseDate searchInput activeFilter "priority"
        todoList).Pairwise (fun a b => ∃ x y : Int,
          priorityOrder a.priority = some x ∧ priorityOrder b.priority = some y ∧ y ≤ x) ∧
      (∀ k : Int,
        ((filterAndSortTasks toLowerCase parseDate searchInput activeFilter "priority"
            todoList).filter (fun t => priorityOrder t.priority = some k)).map Li.task =
          (todoList.filter (fun t => priorityOrder t.priority = some k)).map Li.task) ∧
      ((filterAndSortTasks toLowerCase parseDate searchInput activeFilter "priority"
          todoList).map Li.task).Perm (todoList.map Li.task) ∧
      (priorityOrder "high" = some 3 ∧ priorityOrder "medium" = some 2 ∧
        priorityOrder "low" = some 1 ∧
        ∀ p : String, p ≠ "high" → p ≠ "medium" → p ≠ "low" → inheritedMember p = false →
          priorityOrder p = some 0) ∧
      (∀ a b c : Li,
        (filterAndSortTasks toLowerCase parseDate searchInput activeFilter "priority"
          [{ a with priority := "low" }, { b with priority := "high" },
            { c with priority := "medium" }]).map Li.task =
          [{ b with priority := "high" }, { c with priority := "medium" },
            { a with priority := "low" }].map Li.task) := by
  refine ⟨?_, fun k => ?_, ?_, ⟨by decide, by decide, by decide, fun p h1 h2 h3 h4 => ?_⟩,
    fun a b c => ?_⟩
  · rw [filterAndSortTasks_eq, if_pos rfl]
    refine arraySort_priority_sorted _ fun t ht => ?_
    obtain ⟨u, hu, rfl⟩ := List.mem_map.mp ht
    exact priorityOrder_isSome _ (hown u hu)
  · rw [filterAndSortTasks_eq, if_pos rfl, arraySort_priority_stable]
    exact filter_map_display (fun t => decide (priorityOrder t.priority = some k))
      (fun task => if isVisible toLowerCase (toLowerCase searchInput) activeFilter task
        then "flex" else "none") (fun _ => rfl) todoList
  · refine ((filterAndSortTasks_perm toLowerCase parseDate searchInput activeFilter "priority"
      todoList).map Li.task).trans ?_
    rw [List.map_map]
    exact List.Perm.of_eq (List.map_congr_left fun _ _ => rfl)
  · simp [priorityOrder, h1, h2, h3, h4]
  · rw [filterAndSortTasks_eq, if_pos rfl]
    simp [arraySort, List.insertionSort, List.orderedInsert, sortCompare, comparePriority,
      priorityOrder, Li.task]

/-- Witness for `priority_sort`: the two-task page, whose priorities are low and high. -/
theorem priority_sort_witness :
    (∀ t ∈ twoTasks.todoList, inheritedMember t.priority = false) ∧
      (filterAndSortTasks asciiLower parseIsoDate "" "all" "priority"
        twoTasks.todoList).Pairwise (fun a b => ∃ x y : Int,
          priorityOrder a.priority = some x ∧ priorityOrder b.priority = some y ∧ y ≤ x) ∧
      (filterAndSortTasks asciiLower parseIsoDate "" "all" "priority"
        twoTasks.todoList).map Li.priority = ["high", "low"] :=
  ⟨by decide, (priority_sort asciiLower parseIsoDate "" "all" twoTasks.todoList (by decide)).1,
    by decide⟩

theorem sortCompare_dueDate_valid (parseDate : String → Option Int) (a b : Li)
    (ha : (parseDate a.dueDate).isSome) (hb : (parseDate b.dueDate).isSome) :
    sortCompare (compareDueDate parseDate) a b ≤ 0 ↔
      (fun t : Li => (parseDate t.dueDate).getD 0) a ≤
        (fun t : Li => (parseDate t.dueDate).getD 0) b := by
  obtain ⟨x, hx⟩ := Option.isSome_iff_exists.mp ha
  obtain ⟨y, hy⟩ := Option.isSome_iff_exists.mp hb
  simp only [sortCompare, compareDueDate, hx, hy, Option.getD_some]
  omega

/-- C4 as stated fails: a task with the valid due date 2024-04-15 followed by a task with
an empty due date is left in that order by the `dueDate` sort, so the task without a
valid date does not come first; and with an undated task between them, the dated tasks
2024-05-01 and 2024-04-15 are left in descending order. -/
theorem undated_task_not_first :
    parseIsoDate "2024-04-15" = some 1713139200000 ∧ parseIsoDate "" = none ∧
      (filterAndSortTasks asciiLower parseIsoDate "" "all" "dueDate" datedThenUndated).map
          Li.dueDate = ["2024-04-15", ""] ∧
      (filterAndSortTasks asciiLower parseIsoDate "" "all" "dueDate" undatedBetween).map
          Li.dueDate = ["2024-05-01", "", "2024-04-15"] := by
  decide

/-- C4 amended: when the due date of every task parses to a valid date, `filterAndSortTasks`
with sort key `dueDate` leaves the list in ascending order of parsed due date, tasks with
the same date keep their relative order, and the tasks are the same. -/
theorem dueDate_sort_valid (toLowerCase : String → String) (parseDate : String → Option Int)
    (searchInput activeFilter : String) (todoList : List Li)
    (hvalid : ∀ t ∈ todoList, (parseDate t.dueDate).isSome) :
    (filterAndSortTasks toLowerCase parseDate searchInput activeFilter "dueDate"
        todoList).Pairwise (fun a b => ∃ x y : Int,
          parseDate a.dueDate = some x ∧ parseDate b.dueDate = some y ∧ x ≤ y) ∧
      (∀ d : Int,
        ((filterAndSortTasks toLowerCase parseDate searchInput activeFilter "dueDate"
            todoList).filter (fun t => parseDate t.dueDate = some d)).map Li.task =
          (todoList.filter (fun t => parseDate t.dueDate = some d)).map Li.task) ∧
      ((filterAndSortTasks toLowerCase parseDate searchInput activeFilter "dueDate"
          todoList).map Li.task).Perm (todoList.map Li.task) := by
  have hne : ("dueDate" : String) ≠ "priority" := by decide
  have hvalid' : ∀ t ∈ (todoList.map fun task =>
      ({ task with display :=
          if isVisible toLowerCase (toLowerCase searchInput) activeFilter task
          then "flex" else "none" } : Li)), (parseDate t.dueDate).isSome := by
    intro t ht
    obtain ⟨u, hu, rfl⟩ := List.mem_map.mp ht
    exact hvalid u hu
  refine ⟨?_, fun d => ?_, ?_⟩
  · rw [filterAndSortTasks_eq, if_neg hne, if_pos rfl]
    have e := insertionSort_congr _ _ _ fun a ha b hb =>
      sortCompare_dueDate_valid parseDate a b (hvalid' a ha) (hvalid' b hb)
    unfold arraySort
    rw [e]
    refine (sorted_insertionSort_key _ _).imp_of_mem fun {a b} ha hb hab => ?_
    have ha' := hvalid' a ((List.mem_insertionSort _).mp ha)
    have hb' := hvalid' b ((List.mem_insertionSort _).mp hb)
    obtain ⟨x, hx⟩ := Option.isSome_iff_exists.mp ha'
    obtain ⟨y, hy⟩ := Option.isSome_iff_exists.mp hb'
    exact ⟨x, y, hx, hy, by simpa [hx, hy] using hab⟩
  · rw [filterAndSortTasks_eq, if_neg hne, if_pos rfl]
    have hst : (arraySort (compareDueDate parseDate) (todoList.map fun task =>
        ({ task with display :=
            if isVisible toLowerCase (toLowerCase searchInput) activeFilter task
            then "flex" else "none" } : Li))).filter (fun t => parseDate t.dueDate = some d) =
        (todoList.map fun task =>
        ({ task with display :=
            if isVisible toLowerCase (toLowerCase searchInput) activeFilter task
            then "flex" else "none" } : Li)).filter (fun t => parseDate t.dueDate = some d) := by
      refine filter_insertionSort _ _ (fun a b hab hk => hab ?_) _
      simp only [decide_eq_true_eq] at hk
      simp [sortCompare, compareDueDate, hk.1, hk.2]
    rw [hst]
    exact filter_map_display (fun t => decide (parseDate t.dueDate = some d))
      (fun task => if isVisible toLowerCase (toLowerCase searchInput) activeFilter task
        then "flex" else "none") (fun _ => rfl) todoList
  · refine ((filterAndSortTasks_perm toLowerCase parseDate searchInput activeFilter "dueDate"
      todoList).map Li.task).trans ?_
    rw [List.map_map]
    exact List.Perm.of_eq (List.map_congr_left fun _ _ => rfl)

/-- Witness for `dueDate_sort_valid`: three dated tasks. -/
theorem dueDate_sort_valid_witness :
    (∀ t ∈ [createListItem "a" "2024-05-01" "low" "" false 1,
        createListItem "b" "2024-04-15" "low" "" false 2,
        createListItem "c" "2023-12-31" "low" "" false 3],
        (parseIsoDate t.dueDate).isSome) ∧
      (filterAndSortTasks asciiLower parseIsoDate "" "all" "dueDate"
        [createListItem "a" "2024-05-01" "low" "" false 1,
          createListItem "b" "2024-04-15" "low" "" false 2,
          createListItem "c" "2023-12-31" "low" "" false 3]).Pairwise (fun a b => ∃ x y : Int,
          parseIsoDate a.dueDate = some x ∧ parseIsoDate b.dueDate = some y ∧ x ≤ y) :=
  ⟨by decide, (dueDate_sort_valid asciiLower parseIsoDate "" "all" _ (by decide)).1⟩

/-- Witness for `visible_iff`: the two-task page, search term "TAX", filter `pending`. -/
theorem visible_iff_witness :
    ("pending" = "all" ∨ "pending" = "pending" ∨ "pending" = "completed") ∧
      (filterAndSortTasks asciiLower parseIsoDate "TAX" "pending" "none"
        twoTasks.todoList).map Li.display = ["none", "flex"] ∧
      ∀ task ∈ filterAndSortTasks asciiLower parseIsoDate "TAX" "pending" "none"
          twoTasks.todoList,
        (task.display = "flex" ↔
          ((asciiLower "TAX").data <:+: (asciiLower task.text).data ∧
            ("pending" = "pending" → task.completed = false) ∧
            ("pending" = "completed" → task.completed = true))) :=
  ⟨by decide, by decide, fun task h =>
    ((visible_iff asciiLower parseIsoDate "TAX" "pending" "none" twoTasks.todoList
      (by decide)).2 task h).2⟩

/-! ## Drag and drop -/

theorem toDouble_den_pos (n d : Nat) : 0 < (toDouble n d).den := by
  unfold toDouble
  split_ifs
  · exact Nat.one_pos
  · positivity

theorem dragOffset_den_pos (y : Number) (box : DOMRect) : 0 < (dragOffset y box).den :=
  toDouble_den_pos _ _

theorem Number.lt_iff (a b : Number) (ha : 0 < a.den) (hb : 0 < b.den) :
    a.lt b = true ↔ a.val < b.val := by
  have ha' : (0 : ℚ) < a.den := by exact_mod_cast ha
  have hb' : (0 : ℚ) < b.den := by exact_mod_cast hb
  simp only [Number.lt, decide_eq_true_eq, Number.val]
  rw [div_lt_div_iff₀ ha' hb']
  constructor
  · intro h
    exact_mod_cast h
  · intro h
    exact_mod_cast h

theorem Number.lt_zero_iff (a : Number) (ha : 0 < a.den) :
    a.lt (Number.ofInt 0) = true ↔ a.val < 0 := by
  rw [Number.lt_iff a _ ha Nat.one_pos]
  simp [Number.val, Number.ofInt]

theorem dragStep_none {α : Type} (rect : α → DOMRect) (y : Number) (c : Closest α) (a : α)
    (hc : c.offset = none) :
    dragStep rect y c a =
      if (dragOffset y (rect a)).val < 0 then
        { offset := some (dragOffset y (rect a)), element := some a }
      else c := by
  have h0 := Number.lt_zero_iff (dragOffset y (rect a)) (dragOffset_den_pos y (rect a))
  simp only [dragOffset] at h0
  simp only [dragStep, dragOffset, hc, Bool.and_true]
  by_cases h : (((y.sub (rect a).top).sub ((rect a).height.div (Number.ofInt 2))).val < 0)
  · rw [if_pos (h0.mpr h), if_pos h]
  · rw [if_neg (fun hc => h (h0.mp hc)), if_neg h]

theorem dragStep_some {α : Type} (rect : α → DOMRect) (y : Number) (c : Closest α) (a e : α)
    (hc : c.offset = some (dragOffset y (rect e))) :
    dragStep rect y c a =
      if (dragOffset y (rect a)).val < 0 ∧
          (dragOffset y (rect e)).val < (dragOffset y (rect a)).val then
        { offset := some (dragOffset y (rect a)), element := some a }
      else c := by
  have h0 := Number.lt_zero_iff (dragOffset y (rect a)) (dragOffset_den_pos y (rect a))
  have h1 := Number.lt_iff (dragOffset y (rect e)) (dragOffset y (rect a))
    (dragOffset_den_pos y (rect e)) (dragOffset_den_pos y (rect a))
  simp only [dragOffset] at h0 h1
  simp only [dragStep, dragOffset, hc, Bool.and_eq_true, h0, h1]

theorem dragInv_step {α : Type} (rect : α → DOMRect) (y : Number) (l : List α)
    (c : Closest α) (a : α) (h : DragInv rect y l c) :
    DragInv rect y (l ++ [a]) (dragStep rect y c a) := by
  rcases h with ⟨hel, hoff, hall⟩ | ⟨pre, e, post, hl, hel, hoff, hneg, hpre, hpost⟩
  · rw [dragStep_none rect y c a hoff]
    by_cases ha : (dragOffset y (rect a)).val < 0
    · rw [if_pos ha]
      refine Or.inr ⟨l, a, [], rfl, rfl, rfl, ha, fun x hx hx0 => absurd hx0 (hall x hx), ?_⟩
      intro x hx
      simp at hx
    · rw [if_neg ha]
      refine Or.inl ⟨hel, hoff, fun x hx => ?_⟩
      rcases List.mem_append.mp hx with hx | hx
      · exact hall x hx
      · rw [List.mem_singleton.mp hx]
        exact ha
  · rw [dragStep_some rect y c a e hoff]
    by_cases ha : (dragOffset y (rect a)).val < 0 ∧
        (dragOffset y (rect e)).val < (dragOffset y (rect a)).val
    · rw [if_pos ha]
      refine Or.inr ⟨l, a, [], rfl, rfl, rfl, ha.1, fun x hx hx0 => ?_, ?_⟩
      · rw [hl] at hx
        rcases List.mem_append.mp hx with hx | hx
        · exact lt_trans (hpre x hx hx0) ha.2
        · rcases List.mem_cons.mp hx with rfl | hx
          · exact ha.2
          · exact lt_of_le_of_lt (hpost x hx hx0) ha.2
      · intro x hx
        simp at hx
    · rw [if_neg ha]
      refine Or.inr ⟨pre, e, post ++ [a], by simp [hl], hel, hoff, hneg, hpre,
        fun x hx hx0 => ?_⟩
      rcases List.mem_append.mp hx with hx | hx
      · exact hpost x hx hx0
      · rw [List.mem_singleton.mp hx] at hx0 ⊢
        exact not_lt.mp fun hlt => ha ⟨hx0, hlt⟩

theorem dragInv_foldl {α : Type} (rect : α → DOMRect) (y : Number) (l : List α) :
    DragInv rect y l (l.foldl (dragStep rect y) { offset := none, element := none }) := by
  induction l using List.reverseRecOn with
  | nil => exact Or.inl ⟨rfl, rfl, fun _ h => absurd h (List.not_mem_nil _)⟩
  | append_singleton l a ih =>
    rw [List.foldl_append]
    exact dragInv_step rect y l _ a ih

/-- C6 as stated fails: for the single box whose top and height are the doubles nearest
to `2644/60` and `7792/60` and the pointer at 109, the exact midpoint lies below the
pointer (it is greater than 109), so this box is the first element whose midpoint lies
below the pointer; but the three double operations give the offset `0`, which is not
negative, and `getDragAfterElement` returns no element. -/
theorem midpoint_below_not_returned :
    (Number.ofInt 109).val < midpoint roundedBox ∧
      ([roundedBox].find? fun e => decide ((Number.ofInt 109).val < midpoint e)) =
        some roundedBox ∧
      dragOffset (Number.ofInt 109) roundedBox = { num := 0, den := 1 } ∧
      getDragAfterElement (fun _ => false) id [roundedBox] (Number.ofInt 109) = none := by
  have ht : roundedBox.top = { num := 6201831986858121, den := 140737488355328 } := by decide
  have hh : roundedBox.height = { num := 4569277121936316, den := 35184372088832 } := by
    decide
  have hlt : (Number.ofInt 109).val < midpoint roundedBox := by
    simp only [midpoint, ht, hh, Number.val, Number.ofInt]
    norm_num
  refine ⟨hlt, ?_, by decide, by decide⟩
  rw [List.find?_cons_of_pos _ (by simpa using hlt)]

/-- C6 amended: over the children that are not being dragged, with the offset
`y - top - height / 2` as the double operations compute it, `getDragAfterElement` returns
no element exactly when no computed offset is negative; an element it returns has a
negative computed offset, no negative computed offset is nearer to zero, and every
negative computed offset before it in the list is strictly further from zero (the
earliest wins a tie); and when every offset is computed without rounding and the
midpoints increase strictly along the list, it returns the first element whose midpoint
is below the pointer (greater than `y`). -/
theorem getDragAfterElement_spec {α : Type} (dragging : α → Bool) (rect : α → DOMRect)
    (container : List α) (y : Number) :
    (getDragAfterElement dragging rect container y = none ↔
        ∀ e ∈ container.filter (fun li => !dragging li), ¬ (dragOffset y (rect e)).val < 0) ∧
      (∀ e, getDragAfterElement dragging rect container y = some e →
        (dragOffset y (rect e)).val < 0 ∧
        ∃ pre post, container.filter (fun li => !dragging li) = pre ++ e :: post ∧
          (∀ x ∈ pre, (dragOffset y (rect x)).val < 0 →
            (dragOffset y (rect x)).val < (dragOffset y (rect e)).val) ∧
          (∀ x ∈ post, (dragOffset y (rect x)).val < 0 →
            (dragOffset y (rect x)).val ≤ (dragOffset y (rect e)).val)) ∧
      ((∀ e ∈ container.filter (fun li => !dragging li),
          (dragOffset y (rect e)).val = y.val - (rect e).top.val - (rect e).height.val / 2) →
        ((container.filter (fun li => !dragging li)).map fun e => midpoint (rect e)).Pairwise
          (· < ·) →
        getDragAfterElement dragging rect container y =
          (container.filter (fun li => !dragging li)).find?
            fun e => decide (y.val < midpoint (rect e))) := by
  have hinv := dragInv_foldl rect y (container.filter (fun li => !dragging li))
  have hres : getDragAfterElement dragging rect container y =
      ((container.filter (fun li => !dragging li)).foldl (dragStep rect y)
        { offset := none, element := none }).element := rfl
  refine ⟨?_, ?_, ?_⟩
  · rw [hres]
    rcases hinv with ⟨hel, -, hall⟩ | ⟨pre, e, post, hl, hel, -, hneg, -, -⟩
    · exact ⟨fun _ => hall, fun _ => hel⟩
    · have hmem : e ∈ container.filter (fun li => !dragging li) := by
        rw [hl]
        simp
      constructor
      · intro h
        rw [hel] at h
        cases h
      · intro h
        exact absurd hneg (h e hmem)
  · intro e he
    rw [hres] at he
    rcases hinv with ⟨hel, -, -⟩ | ⟨pre, e', post, hl, hel, -, hneg, hpre, hpost⟩
    · rw [hel] at he
      cases he
    · rw [hel] at he
      cases he
      exact ⟨hneg, pre, post, hl, hpre, hpost⟩
  · intro hexact hpw
    have hmid : ∀ e ∈ container.filter (fun li => !dragging li),
        ((dragOffset y (rect e)).val < 0 ↔ y.val < midpoint (rect e)) := by
      intro e he
      rw [hexact e he]
      simp only [midpoint]
      constructor <;> intro h <;> linarith
    rw [hres]
    rcases hinv with ⟨hel, -, hall⟩ | ⟨pre, e, post, hl, hel, -, hneg, hpre, -⟩
    · rw [hel]
      symm
      rw [List.find?_eq_none]
      intro x hx hc
      exact hall x hx ((hmid x hx).mpr (by simpa using hc))
    · have hmem : ∀ x ∈ pre ++ e :: post, x ∈ container.filter (fun li => !dragging li) := by
        intro x hx
        rw [hl]
        exact hx
      have he : e ∈ pre ++ e :: post := by simp
      rw [hel]
      symm
      rw [List.find?_eq_some]
      refine ⟨by simpa using (hmid e (hmem e he)).mp hneg, pre, post, hl, fun x hx => ?_⟩
      have hxm : x ∈ pre ++ e :: post := List.mem_append_left _ hx
      rw [hl, List.map_append, List.map_cons, List.pairwise_append] at hpw
      have hlt : midpoint (rect x) < midpoint (rect e) :=
        hpw.2.2 _ (List.mem_map_of_mem _ hx) _ (List.mem_cons_self _ _)
      have hnot : ¬ y.val < midpoint (rect x) := by
        intro hc
        have h1 := hpre x hx ((hmid x (hmem x hxm)).mpr hc)
        rw [hexact x (hmem x hxm), hexact e (hmem e he)] at h1
        simp only [midpoint] at hlt
        linarith
      simpa using hnot

theorem Number.val_eq_of (a : Number) (k : Int) (ha : 0 < a.den)
    (h : a.num = k * a.den) : a.val = k := by
  have ha' : (a.den : ℚ) ≠ 0 := by exact_mod_cast ha.ne'
  simp only [Number.val, h]
  push_cast
  field_simp

set_option maxRecDepth 100000 in
theorem dragOffset_threeBoxes :
    (dragOffset (Number.ofInt 60) { top := Number.ofInt 0, height := Number.ofInt 40 }).num =
        40 * (dragOffset (Number.ofInt 60)
          { top := Number.ofInt 0, height := Number.ofInt 40 }).den ∧
      (dragOffset (Number.ofInt 60) { top := Number.ofInt 50, height := Number.ofInt 40 }).num =
        -10 * (dragOffset (Number.ofInt 60)
          { top := Number.ofInt 50, height := Number.ofInt 40 }).den ∧
      (dragOffset (Number.ofInt 60) { top := Number.ofInt 100, height := Number.ofInt 40 }).num =
        -60 * (dragOffset (Number.ofInt 60)
          { top := Number.ofInt 100, height := Number.ofInt 40 }).den := by
  decide

/-- Witness for `getDragAfterElement_spec`: with the pointer at 60 over three boxes whose
midpoints are 20, 70 and 120, the offsets 40, -10 and -60 are computed without rounding
and the second box is returned. -/
theorem getDragAfterElement_spec_witness :
    (∀ e ∈ threeBoxes.filter (fun li => !(fun _ => false) li),
        (dragOffset (Number.ofInt 60) (id e)).val =
          (Number.ofInt 60).val - (id e).top.val - (id e).height.val / 2) ∧
      ((threeBoxes.filter (fun li => !(fun _ => false) li)).map fun e => midpoint (id e)).Pairwise
        (· < ·) ∧
      getDragAfterElement (fun _ => false) id threeBoxes (Number.ofInt 60) =
        some { top := Number.ofInt 50, height := Number.ofInt 40 } := by
  have h1 := Number.val_eq_of _ 40 (dragOffset_den_pos _ _) dragOffset_threeBoxes.1
  have h2 := Number.val_eq_of _ (-10) (dragOffset_den_pos _ _) dragOffset_threeBoxes.2.1
  have h3 := Number.val_eq_of _ (-60) (dragOffset_den_pos _ _) dragOffset_threeBoxes.2.2
  have hexact : ∀ e ∈ threeBoxes.filter (fun li => !(fun _ => false) li),
      (dragOffset (Number.ofInt 60) (id e)).val =
        (Number.ofInt 60).val - (id e).top.val - (id e).height.val / 2 := by
    intro e he
    simp only [threeBoxes, Bool.not_false, List.filter_cons_of_pos, List.filter_nil,
      List.mem_cons, List.mem_singleton, List.not_mem_nil, or_false] at he
    rcases he with rfl | rfl | rfl
    · rw [id, h1]
      norm_num [Number.val, Number.ofInt]
    · rw [id, h2]
      norm_num [Number.val, Number.ofInt]
    · rw [id, h3]
      norm_num [Number.val, Number.ofInt]
  have hpw : ((threeBoxes.filter (fun li => !(fun _ => false) li)).map
      fun e => midpoint (id e)).Pairwise (· < ·) := by
    simp [threeBoxes, midpoint, Number.val, Number.ofInt]
    norm_num
  refine ⟨hexact, hpw, ?_⟩
  rw [(getDragAfterElement_spec (fun _ => false) id threeBoxes (Number.ofInt 60)).2.2 hexact hpw]
  simp [threeBoxes, midpoint, List.find?, Number.val, Number.ofInt]
  norm_num

/-! ## Progress: double arithmetic -/

theorem halvings_spec : ∀ fuel n : Nat, n ≤ fuel → 0 < n →
    2 ^ halvings fuel n ≤ n ∧ n < 2 ^ (halvings fuel n + 1)
  | 0, n, h, hn => by omega
  | fuel + 1, n, h, hn => by
    by_cases h2 : n < 2
    · have : n = 1 := by omega
      subst this
      simp [halvings]
    · have ih := halvings_spec fuel (n / 2) (by omega) (by omega)
      simp only [halvings, h2, if_false]
      rw [pow_succ, pow_succ (2 : Nat) (halvings fuel (n / 2) + 1)]
      omega

theorem floorLog2_spec (n : Nat) (hn : 0 < n) :
    2 ^ floorLog2 n ≤ n ∧ n < 2 ^ (floorLog2 n + 1) :=
  halvings_spec n n le_rfl hn

theorem roundTiesEven_near (n d : Nat) (hd : 0 < d) :
    2 * (d * roundTiesEven n d) ≤ 2 * n + d ∧ 2 * n ≤ 2 * (d * roundTiesEven n d) + d := by
  have hdiv := Nat.div_add_mod n d
  have hmod := Nat.mod_lt n hd
  unfold roundTiesEven
  simp only
  split_ifs <;> (try rw [Nat.mul_add, Nat.mul_one]) <;> omega

theorem two_zpow_toNat (s : Int) :
    ((2 : ℚ) ^ s.toNat) / ((2 : ℚ) ^ (-s).toNat) = (2 : ℚ) ^ s := by
  rcases le_total 0 s with h | h
  · have h1 : (-s).toNat = 0 := Int.toNat_eq_zero.mpr (by omega)
    rw [h1, pow_zero, div_one, ← zpow_natCast, Int.toNat_of_nonneg h]
  · have h1 : s.toNat = 0 := Int.toNat_eq_zero.mpr h
    have h2 : ((-s).toNat : Int) = -s := Int.toNat_of_nonneg (by omega)
    rw [h1, pow_zero, one_div, ← zpow_natCast, h2, zpow_neg, inv_inv]

theorem binade_le (n d : Nat) (hn : 0 < n) (hd : 0 < d) :
    (d : ℚ) * (2 : ℚ) ^ binade n d ≤ n := by
  obtain ⟨hn1, -⟩ := floorLog2_spec n hn
  obtain ⟨-, hd2⟩ := floorLog2_spec d hd
  have hn1' : ((2 : ℚ) ^ floorLog2 n) ≤ n := by exact_mod_cast hn1
  have hd2' : (d : ℚ) ≤ (2 : ℚ) ^ (floorLog2 d + 1) := by exact_mod_cast hd2.le
  unfold binade
  simp only
  split_ifs with htest
  · rcases le_total (floorLog2 d) (floorLog2 n) with hab | hab
    · have e0 : floorLog2 d - floorLog2 n = 0 := by omega
      rw [e0, pow_zero, mul_one] at htest
      have e1 : ((floorLog2 n : Int) - (floorLog2 d : Int)) = ((floorLog2 n - floorLog2 d : Nat) : Int) := by
        omega
      rw [e1, zpow_natCast]
      exact_mod_cast htest
    · have e0 : floorLog2 n - floorLog2 d = 0 := by omega
      rw [e0, pow_zero, mul_one] at htest
      have e1 : ((floorLog2 n : Int) - (floorLog2 d : Int)) = -((floorLog2 d - floorLog2 n : Nat) : Int) := by
        omega
      rw [e1, zpow_neg, zpow_natCast, ← div_eq_mul_inv, div_le_iff₀ (by positivity)]
      exact_mod_cast htest
  · have hpos : (0 : ℚ) < (2 : ℚ) ^ ((floorLog2 n : Int) - (floorLog2 d : Int) - 1) := by positivity
    calc (d : ℚ) * (2 : ℚ) ^ ((floorLog2 n : Int) - (floorLog2 d : Int) - 1)
        ≤ (2 : ℚ) ^ (floorLog2 d + 1) * (2 : ℚ) ^ ((floorLog2 n : Int) - (floorLog2 d : Int) - 1) :=
          mul_le_mul_of_nonneg_right hd2' hpos.le
      _ = (2 : ℚ) ^ floorLog2 n := by
          rw [← zpow_natCast, ← zpow_add₀ (by norm_num : (2 : ℚ) ≠ 0), ← zpow_natCast]
          congr 1
          push_cast
          ring
      _ ≤ n := hn1'

theorem binade_lt (n d : Nat) (hn : 0 < n) (hd : 0 < d) :
    (n : ℚ) < d * (2 : ℚ) ^ (binade n d + 1) := by
  obtain ⟨-, hn2⟩ := floorLog2_spec n hn
  obtain ⟨hd1, -⟩ := floorLog2_spec d hd
  have hn2' : (n : ℚ) < (2 : ℚ) ^ (floorLog2 n + 1) := by exact_mod_cast hn2
  have hd1' : ((2 : ℚ) ^ floorLog2 d) ≤ d := by exact_mod_cast hd1
  unfold binade
  simp only
  split_ifs with htest
  · have hpos : (0 : ℚ) < (2 : ℚ) ^ ((floorLog2 n : Int) - (floorLog2 d : Int) + 1) := by
      positivity
    calc (n : ℚ) < (2 : ℚ) ^ (floorLog2 n + 1) := hn2'
      _ = (2 : ℚ) ^ floorLog2 d * (2 : ℚ) ^ ((floorLog2 n : Int) - (floorLog2 d : Int) + 1) := by
          rw [← zpow_natCast, ← zpow_natCast, ← zpow_add₀ (by norm_num : (2 : ℚ) ≠ 0)]
          congr 1
          push_cast
          ring
      _ ≤ d * (2 : ℚ) ^ ((floorLog2 n : Int) - (floorLog2 d : Int) + 1) :=
          mul_le_mul_of_nonneg_right hd1' hpos.le
  · rw [sub_add_cancel]
    have htest' := Nat.lt_of_not_le htest
    rcases le_total (floorLog2 d) (floorLog2 n) with hab | hab
    · have e0 : floorLog2 d - floorLog2 n = 0 := by omega
      rw [e0, pow_zero, mul_one] at htest'
      have e1 : ((floorLog2 n : Int) - (floorLog2 d : Int)) =
          ((floorLog2 n - floorLog2 d : Nat) : Int) := by omega
      rw [e1, zpow_natCast]
      exact_mod_cast htest'
    · have e0 : floorLog2 n - floorLog2 d = 0 := by omega
      rw [e0, pow_zero, mul_one] at htest'
      have e1 : ((floorLog2 n : Int) - (floorLog2 d : Int)) =
          -((floorLog2 d - floorLog2 n : Nat) : Int) := by omega
      rw [e1, zpow_neg, zpow_natCast, ← div_eq_mul_inv, lt_div_iff₀ (by positivity)]
      exact_mod_cast htest'

theorem toDouble_pos (n d : Nat) (hn : 0 < n) :
    toDouble n d =
      { num := roundTiesEven (n * 2 ^ (52 - binade n d).toNat)
                 (d * 2 ^ (-(52 - binade n d)).toNat) * 2 ^ (-(52 - binade n d)).toNat,
        den := 2 ^ (52 - binade n d).toNat } := by
  have hn0 : n ≠ 0 := by omega
  simp [toDouble, hn0]

theorem toDouble_near (n d : Nat) (hn : 0 < n) (hd : 0 < d) :
    0 < (toDouble n d).den ∧
      |(toDouble n d).val - (n : ℚ) / d| ≤ (n : ℚ) / d / 2 ^ 53 := by
  rw [toDouble_pos n d hn]
  generalize hs : (52 - binade n d : Int) = s
  have hU : 0 < 2 ^ s.toNat := by positivity
  have hD : 0 < 2 ^ (-s).toNat := by positivity
  obtain ⟨h1, h2⟩ := roundTiesEven_near (n * 2 ^ s.toNat) (d * 2 ^ (-s).toNat)
    (Nat.mul_pos hd hD)
  generalize roundTiesEven (n * 2 ^ s.toNat) (d * 2 ^ (-s).toNat) = R at h1 h2 ⊢
  have hw : ((2 : ℚ) ^ (-s).toNat) / ((2 : ℚ) ^ s.toNat) * 2 ^ 52 = (2 : ℚ) ^ binade n d := by
    have := two_zpow_toNat (-s)
    rw [neg_neg] at this
    rw [this, ← hs, ← zpow_natCast, ← zpow_add₀ (by norm_num : (2 : ℚ) ≠ 0)]
    congr 1
    push_cast
    ring
  have hb := binade_le n d hn hd
  rw [← hw] at hb
  refine ⟨hU, ?_⟩
  simp only [Double.val]
  push_cast
  have h1' : (2 : ℚ) * (d * (2 : ℚ) ^ (-s).toNat * R) ≤ 2 * (n * (2 : ℚ) ^ s.toNat) +
      d * (2 : ℚ) ^ (-s).toNat := by exact_mod_cast h1
  have h2' : (2 : ℚ) * (n * (2 : ℚ) ^ s.toNat) ≤ 2 * (d * (2 : ℚ) ^ (-s).toNat * R) +
      d * (2 : ℚ) ^ (-s).toNat := by exact_mod_cast h2
  generalize (2 : ℚ) ^ (-s).toNat = D at hb h1' h2' ⊢
  have hUq : (0 : ℚ) < (2 : ℚ) ^ s.toNat := by positivity
  generalize (2 : ℚ) ^ s.toNat = U at hb h1' h2' hUq ⊢
  have hdq : (0 : ℚ) < d := by exact_mod_cast hd
  have hx : D / U * 2 ^ 52 ≤ (n : ℚ) / d := by
    rw [le_div_iff₀ hdq]
    linarith
  have e1 : (R : ℚ) * D / U - (n : ℚ) / d =
      (2 * (d * D * R) - 2 * (n * U)) / (2 * d * U) := by
    field_simp
    ring
  have hden : (0 : ℚ) < 2 * d * U := by positivity
  rw [abs_le, e1]
  constructor
  · rw [le_div_iff₀ hden]
    have : (n : ℚ) / d / 2 ^ 53 * (2 * d * U) ≥ D / U / 2 * (2 * d * U) := by
      apply mul_le_mul_of_nonneg_right _ hden.le
      linarith
    have e3 : D / U / 2 * (2 * d * U) = d * D := by
      field_simp
      ring
    linarith
  · rw [div_le_iff₀ hden]
    have : (n : ℚ) / d / 2 ^ 53 * (2 * d * U) ≥ D / U / 2 * (2 * d * U) := by
      apply mul_le_mul_of_nonneg_right _ hden.le
      linarith
    have e3 : D / U / 2 * (2 * d * U) = d * D := by
      field_simp
      ring
    linarith

theorem mathRound_near (x : Double) (hden : 0 < x.den) :
    (mathRound x : ℚ) ≤ x.val + 1 / 2 ∧ x.val + 1 / 2 < (mathRound x : ℚ) + 1 := by
  have hpos : 0 < 2 * x.den := by omega
  have h1 : mathRound x * (2 * x.den) ≤ 2 * x.num + x.den := Nat.div_mul_le_self _ _
  have h2 : 2 * x.num + x.den < (mathRound x + 1) * (2 * x.den) := by
    have := Nat.lt_succ_iff.mpr (le_refl ((2 * x.num + x.den) / (2 * x.den)))
    exact (Nat.div_lt_iff_lt_mul hpos).mp this
  have hq : (0 : ℚ) < x.den := by exact_mod_cast hden
  have h1' : (mathRound x : ℚ) * (2 * x.den) ≤ 2 * x.num + x.den := by exact_mod_cast h1
  have h2' : (2 : ℚ) * x.num + x.den < ((mathRound x : ℚ) + 1) * (2 * x.den) := by
    exact_mod_cast h2
  have e : x.val + 1 / 2 = (2 * x.num + x.den) / (2 * x.den) := by
    simp only [Double.val]
    field_simp
    ring
  rw [e]
  constructor
  · rw [le_div_iff₀ (by positivity)]
    exact h1'
  · rw [div_lt_iff₀ (by positivity)]
    exact h2'

theorem percentage_zero (t : Nat) : percentage 0 t = 0 := by
  unfold percentage
  split_ifs
  · simp [Double.div, Double.mul, Double.ofNat, toDouble, mathRound]
  · rfl

theorem percentage_near (c t : Nat) (ht : 0 < t) (hct : c ≤ t) (ht32 : t < 2 ^ 32) :
    2 * (t * percentage c t) ≤ 200 * c + t ∧ 200 * c ≤ 2 * (t * percentage c t) + t := by
  rcases Nat.eq_zero_or_pos c with rfl | hc
  · rw [percentage_zero]
    omega
  have hP : percentage c t =
      mathRound (toDouble ((toDouble (c * 1) (1 * t)).num * 100)
        ((toDouble (c * 1) (1 * t)).den * 1)) := by
    simp [percentage, ht, Double.div, Double.mul, Double.ofNat]
  rw [hP, Nat.mul_one, Nat.one_mul, Nat.mul_one]
  obtain ⟨hqd, hq⟩ := toDouble_near c t hc ht
  generalize toDouble c t = q at hqd hq ⊢
  have htq : (0 : ℚ) < t := by exact_mod_cast ht
  have hcq : (0 : ℚ) < c := by exact_mod_cast hc
  have hx0 : (0 : ℚ) < (c : ℚ) / t := by positivity
  have hx1 : (c : ℚ) / t ≤ 1 := by
    rw [div_le_one htq]
    exact_mod_cast hct
  have hxt : (c : ℚ) / t * t = c := by field_simp
  obtain ⟨hq1, hq2⟩ := abs_le.mp hq
  have hqv : 0 < q.val := by
    have : (c : ℚ) / t / 2 ^ 53 < (c : ℚ) / t := by
      rw [div_lt_iff₀ (by positivity)]
      linarith
    linarith
  have hqn : 0 < q.num := by
    rcases Nat.eq_zero_or_pos q.num with h0 | h0
    · simp [Double.val, h0] at hqv
    · exact h0
  obtain ⟨hpd, hp⟩ := toDouble_near (q.num * 100) q.den (by omega) hqd
  have e100 : (((q.num * 100 : Nat) : ℚ)) / (q.den : ℚ) = 100 * q.val := by
    simp only [Double.val]
    push_cast
    ring
  rw [e100] at hp
  generalize toDouble (q.num * 100) q.den = p at hpd hp ⊢
  obtain ⟨hp1, hp2⟩ := abs_le.mp hp
  obtain ⟨hr1, hr2⟩ := mathRound_near p hpd
  generalize mathRound p = P at hr1 hr2 ⊢
  generalize p.val = pv at hp1 hp2 hr1 hr2
  generalize q.val = qv at hq1 hq2 hqv hp1 hp2
  have ht32q : (t : ℚ) < 2 ^ 32 := by exact_mod_cast ht32
  generalize hX : (c : ℚ) / t = X at hx0 hx1 hxt hq1 hq2
  have hqle : qv ≤ 2 := by
    have : X / 2 ^ 53 ≤ 1 := by
      rw [div_le_iff₀ (by positivity)]
      linarith
    linarith
  have hd1 : X / 2 ^ 53 ≤ 1 / 2 ^ 53 := by
    apply div_le_div_of_nonneg_right hx1
    positivity
  have hd2 : 100 * qv / 2 ^ 53 ≤ 200 / 2 ^ 53 := by
    apply div_le_div_of_nonneg_right _ (by positivity)
    linarith
  have hup : (P : ℚ) ≤ 100 * X + 1 / 2 + 300 / 2 ^ 53 := by linarith
  have hlo : 100 * X < (P : ℚ) + 1 / 2 + 300 / 2 ^ 53 := by linarith
  have hup' : (P : ℚ) * t ≤ (100 * X + 1 / 2 + 300 / 2 ^ 53) * t :=
    mul_le_mul_of_nonneg_right hup htq.le
  have hlo' : 100 * X * t < ((P : ℚ) + 1 / 2 + 300 / 2 ^ 53) * t :=
    mul_lt_mul_of_pos_right hlo htq
  have hsmall : (300 : ℚ) / 2 ^ 53 * t < 1 / 2 := by
    have : (300 : ℚ) / 2 ^ 53 * t < 300 / 2 ^ 53 * 2 ^ 32 :=
      mul_lt_mul_of_pos_left ht32q (by positivity)
    have h2 : (300 : ℚ) / 2 ^ 53 * 2 ^ 32 < 1 / 2 := by norm_num
    linarith
  have e1 : 100 * X * t = 100 * c := by rw [mul_assoc, hxt]
  have e2 : (100 * X + 1 / 2 + 300 / 2 ^ 53) * t = 100 * c + t / 2 + 300 / 2 ^ 53 * t := by
    rw [add_mul, add_mul, e1]
    ring
  have e3 : ((P : ℚ) + 1 / 2 + 300 / 2 ^ 53) * t = t * P + t / 2 + 300 / 2 ^ 53 * t := by
    ring
  rw [e2] at hup'
  rw [e1, e3] at hlo'
  have g1 : (2 : ℚ) * (t * P) < 200 * c + t + 1 := by linarith
  have g2 : (200 : ℚ) * c < 2 * (t * P) + t + 1 := by linarith
  have g1' : 2 * (t * P) < 200 * c + t + 1 := by exact_mod_cast g1
  have g2' : 200 * c < 2 * (t * P) + t + 1 := by exact_mod_cast g2
  omega

theorem exactPercentage_of_near (c t P : Nat) (ht : 0 < t)
    (h1 : 2 * (t * P) ≤ 200 * c + t) (h2 : 200 * c ≤ 2 * (t * P) + t)
    (hhalf : (200 * c + t) % (2 * t) ≠ 0) : P = exactPercentage c t := by
  have hpos : 0 < 2 * t := by omega
  unfold exactPercentage
  apply le_antisymm
  · rw [Nat.le_div_iff_mul_le hpos]
    calc P * (2 * t) = 2 * (t * P) := by ring
      _ ≤ 200 * c + t := h1
  · by_contra hlt
    have hge : P + 1 ≤ (200 * c + t) / (2 * t) := by omega
    rw [Nat.le_div_iff_mul_le hpos] at hge
    have e : (P + 1) * (2 * t) = 2 * (t * P) + 2 * t := by ring
    have heq : 200 * c + t = (P + 1) * (2 * t) := by omega
    apply hhalf
    rw [heq]
    exact Nat.mul_mod_left _ _

/-- C7 as stated fails: with 40 tasks of which 23 are completed the exact percentage is
57.5, which rounds half-up to 58, while `updateProgress` yields 57 (the double product
`23 / 40 * 100` is just below 57.5). -/
theorem half_percent_rounded_down :
    fortyTasks.length = 40 ∧ (fortyTasks.filter fun li => li.completed).length = 23 ∧
      exactPercentage 23 40 = 58 ∧ updateProgress fortyTasks = 57 := by
  decide

/-- C7 amended: `updateProgress` yields 0 for the empty list; for a list of fewer than
`2^32` tasks, with `c` completed of `t`, it yields an integer `P` with `0 ≤ P ≤ 100` that
is a nearest integer to `100 c / t` (`|P - 100 c / t| ≤ 1/2`), equal to the half-up
rounding `⌊100 c / t + 1/2⌋` whenever `100 c / t` is not halfway between two integers;
and for 3 tasks with 1 completed it yields 33. -/
theorem updateProgress_spec (todoList : List Li) (hlen : todoList.length < 2 ^ 32) :
    updateProgress [] = 0 ∧
      updateProgress todoList ≤ 100 ∧
      2 * (todoList.length * updateProgress todoList) ≤
        200 * (todoList.filter fun li => li.completed).length + todoList.length ∧
      200 * (todoList.filter fun li => li.completed).length ≤
        2 * (todoList.length * updateProgress todoList) + todoList.length ∧
      ((200 * (todoList.filter fun li => li.completed).length + todoList.length) %
          (2 * todoList.length) ≠ 0 →
        updateProgress todoList =
          exactPercentage (todoList.filter fun li => li.completed).length todoList.length) ∧
      (todoList.length = 3 → (todoList.filter fun li => li.completed).length = 1 →
        updateProgress todoList = 33) := by
  have hc : (todoList.filter fun li => li.completed).length ≤ todoList.length :=
    List.length_filter_le _ _
  have hU : updateProgress todoList =
      percentage (todoList.filter fun li => li.completed).length todoList.length := rfl
  rw [hU]
  generalize (todoList.filter fun li => li.completed).length = c at hc ⊢
  generalize todoList.length = t at hlen hc ⊢
  refine ⟨rfl, ?_⟩
  rcases Nat.eq_zero_or_pos t with rfl | ht
  · have hc0 : c = 0 := by omega
    subst hc0
    refine ⟨by decide, by decide, by decide, fun h => absurd rfl h, fun h => by omega⟩
  · obtain ⟨h1, h2⟩ := percentage_near c t ht hc hlen
    refine ⟨?_, h1, h2, fun hhalf => exactPercentage_of_near c t _ ht h1 h2 hhalf, ?_⟩
    · by_contra hgt
      have h101 : 101 ≤ percentage c t := by omega
      have : t * 101 ≤ t * percentage c t := Nat.mul_le_mul_left t h101
      omega
    · rintro rfl rfl
      decide

/-- Witness for `updateProgress_spec`: the forty tasks of which twenty-three are
completed. -/
theorem updateProgress_spec_witness :
    fortyTasks.length < 2 ^ 32 ∧ updateProgress fortyTasks ≤ 100 ∧
      2 * (fortyTasks.length * updateProgress fortyTasks) ≤
        200 * (fortyTasks.filter fun li => li.completed).length + fortyTasks.length :=
  ⟨by decide, (updateProgress_spec fortyTasks (by decide)).2.1,
    (updateProgress_spec fortyTasks (by decide)).2.2.1⟩

end TodoApp
